import Mathlib

/-!
# NNUE trainer: packed training features and the feature-set factorizer

A shallow embedding of

* `src/eval/nnue/trainer/trainer.h` (`TrainingFeature`, `Message`, `ReceiveMessage`), and
* `src/eval/nnue/trainer/features/factorizer_feature_set.h`
  (`Factorizer<FeatureSet<...>>`, both specialisations).

`IndexType` and `StorageType` are `std::uint32_t`: values are natural numbers
and every arithmetic operation of the source is reduced modulo `2 ^ 32`
explicitly.  An `assert` of the source is a checked failure: the operation
ends with the kind of the assertion that did not hold.
-/

namespace Eval.NNUE

/-! ## Machine arithmetic -/

/-- Reduction of a natural number to a `std::uint32_t` value. -/
def u32 (n : Nat) : Nat := n % 2 ^ 32

/-- Subtraction of two `std::uint32_t` values, `a - b` in the source. -/
def sub32 (a b : Nat) : Nat := (a + (2 ^ 32 - b % 2 ^ 32)) % 2 ^ 32

/-- The assertions of the two headers, one constructor per `assert`. -/
inductive Failure where
  /-- `assert(index < (1 << kIndexBits))`, trainer.h line 38. -/
  | indexBudget
  /-- `assert(other.GetIndex() == GetIndex())`, trainer.h line 41. -/
  | mergeIndex
  /-- `assert(other.GetCount() + GetCount() < (1 << kCountBits))`, trainer.h line 42. -/
  | mergeCount
  /-- `assert(GetIndex() + offset < (1 << kIndexBits))`, trainer.h line 52. -/
  | shiftOverflow
  /-- `assert(base_index < kBaseDimensions)`, factorizer_feature_set.h lines 41 and 91. -/
  | baseIndexRange
  /-- The per-record assertion of the head branch, factorizer_feature_set.h line 58. -/
  | headRecordRange
  /-- The per-record assertion of the base case, factorizer_feature_set.h line 100. -/
  | leafRecordRange
  deriving DecidableEq, Repr

/-! ## `TrainingFeature` (trainer.h lines 28-66) -/

/-- `kIndexBits`, trainer.h line 33. -/
def kIndexBits : Nat := 24

/-- `kCountBits`, trainer.h line 35: the digits of `StorageType` minus `kIndexBits`. -/
def kCountBits : Nat := 32 - kIndexBits

/-- The class `TrainingFeature`: one packed word `index_and_count_` of `StorageType`. -/
structure TrainingFeature where
  index_and_count_ : Nat
  deriving DecidableEq, Repr

namespace TrainingFeature

/-- The constructor `TrainingFeature(index)`, trainer.h lines 37-38. -/
def create (index : Nat) : Except Failure TrainingFeature :=
  if index < 1 <<< kIndexBits then
    .ok ⟨u32 (index <<< kCountBits) ||| 1⟩
  else .error .indexBudget

/-- `GetIndex()`, trainer.h lines 47-49. -/
def GetIndex (f : TrainingFeature) : Nat := f.index_and_count_ >>> kCountBits

/-- `GetCount()`, trainer.h lines 56-58. -/
def GetCount (f : TrainingFeature) : Nat :=
  f.index_and_count_ &&& ((1 <<< kCountBits) - 1)

/-- `ShiftIndex(offset)`, trainer.h lines 51-54. -/
def ShiftIndex (f : TrainingFeature) (offset : Nat) : Except Failure TrainingFeature :=
  if u32 (f.GetIndex + offset) < 1 <<< kIndexBits then
    .ok ⟨u32 (f.index_and_count_ + u32 (offset <<< kCountBits))⟩
  else .error .shiftOverflow

/-- `operator+=`, trainer.h lines 40-45. -/
def merge (f other : TrainingFeature) : Except Failure TrainingFeature :=
  if other.GetIndex = f.GetIndex then
    if u32 (other.GetCount + f.GetCount) < 1 <<< kCountBits then
      .ok ⟨u32 (f.index_and_count_ + other.GetCount)⟩
    else .error .mergeCount
  else .error .mergeIndex

/-- `operator<`, trainer.h lines 60-62. -/
def lt (f other : TrainingFeature) : Bool :=
  decide (f.index_and_count_ < other.index_and_count_)

end TrainingFeature

/-! ## Feature types and feature sets -/

/-- Modelled from the spec: one elementary feature type together with its leaf
factorizer `Factorizer<FeatureType>` (`factorizer.h` and the feature headers are
not among the sources).  `kDimensions` is `FeatureType::kDimensions`, the compact
dimensionality; `GetDimensions` is `Factorizer<FeatureType>::GetDimensions()`;
`AppendTrainingFeatures base_index` is the sequence of records that
`Factorizer<FeatureType>::AppendTrainingFeatures(base_index, training_features)`
appends to its sink. -/
structure FeatureType where
  kDimensions : Nat
  GetDimensions : Nat
  AppendTrainingFeatures : Nat → List TrainingFeature

/-- The template argument list `FeatureSet<FirstFeatureType, RemainingFeatureTypes...>`:
one feature type, or a first feature type followed by a non-empty remainder. -/
inductive FeatureSet where
  | single (t : FeatureType)
  | cons (first : FeatureType) (remaining : FeatureSet)

namespace FeatureSet

/-- Modelled from the spec: `FeatureSet<...>::kDimensions` (`feature_set.h` is not
among the sources), the sum of the compact dimensionalities of every type in the
list, held in an `IndexType`. -/
def kDimensions : FeatureSet → Nat
  | single t => t.kDimensions
  | cons first remaining => u32 (first.kDimensions + remaining.kDimensions)

/-- The members of the list, first type first. -/
def members : FeatureSet → List FeatureType
  | single t => [t]
  | cons first remaining => first :: remaining.members

end FeatureSet

/-! ## `Factorizer<FeatureSet<...>>` (factorizer_feature_set.h) -/

/-- The state in which a call of `AppendTrainingFeatures` ends: the vector
`*training_features` at that moment, and the assertion that ended the call, if one did. -/
structure Outcome where
  training_features : List TrainingFeature
  failure : Option Failure
  deriving DecidableEq, Repr

/-- The loops of lines 53-64 and 96-104 on the elements still to visit: `body` is
run on every element in order and replaces it in place; the first failing
assertion ends the run and leaves the remaining elements as they are. -/
def forEachFrom (body : TrainingFeature → Except Failure TrainingFeature) :
    List TrainingFeature → Outcome
  | [] => ⟨[], none⟩
  | feature :: rest =>
    match body feature with
    | .error e => ⟨feature :: rest, some e⟩
    | .ok shifted =>
      let done := forEachFrom body rest
      ⟨shifted :: done.training_features, done.failure⟩

/-- The loop `for (auto i = start; i < training_features->size(); ++i)`: the first
`start` elements are not touched. -/
def loopFrom (body : TrainingFeature → Except Failure TrainingFeature) (start : Nat)
    (training_features : List TrainingFeature) : Outcome :=
  let done := forEachFrom body (training_features.drop start)
  ⟨training_features.take start ++ done.training_features, done.failure⟩

namespace Single

/-- `Factorizer<FeatureSet<FeatureType>>::kBaseDimensions`, line 78. -/
def kBaseDimensions (t : FeatureType) : Nat := t.kDimensions

/-- `Factorizer<FeatureSet<FeatureType>>::GetDimensions()`, lines 82-84. -/
def GetDimensions (t : FeatureType) : Nat := t.GetDimensions

/-- The body of the loop of lines 96-104. -/
def body (t : FeatureType) (base_dimensions : Nat) (feature : TrainingFeature) :
    Except Failure TrainingFeature :=
  if feature.GetIndex < t.GetDimensions then
    if feature.GetIndex ≥ kBaseDimensions t then
      feature.ShiftIndex (sub32 base_dimensions (kBaseDimensions t))
    else .ok feature
  else .error .leafRecordRange

/-- `Factorizer<FeatureSet<FeatureType>>::AppendTrainingFeatures`, lines 88-105. -/
def AppendTrainingFeatures (t : FeatureType) (base_index : Nat)
    (training_features : List TrainingFeature) (base_dimensions : Nat) : Outcome :=
  if base_index < kBaseDimensions t then
    let start := training_features.length
    let training_features := training_features ++ t.AppendTrainingFeatures base_index
    loopFrom (body t base_dimensions) start training_features
  else ⟨training_features, some .baseIndexRange⟩

end Single

namespace Factorizer

/-- `kBaseDimensions`, lines 28 and 78. -/
def kBaseDimensions (fs : FeatureSet) : Nat := fs.kDimensions

/-- `GetDimensions()`, lines 32-34 and 82-84. -/
def GetDimensions : FeatureSet → Nat
  | .single t => Single.GetDimensions t
  | .cons first remaining => u32 (Single.GetDimensions first + GetDimensions remaining)

/-- The body of the loop of lines 53-64, for head type `first` and tail `remaining`. -/
def body (first : FeatureType) (remaining : FeatureSet) (base_dimensions : Nat)
    (feature : TrainingFeature) : Except Failure TrainingFeature :=
  let index := feature.GetIndex
  if index < Single.GetDimensions first ∨
      (index ≥ base_dimensions ∧
        index < sub32 (u32 (base_dimensions + Single.GetDimensions first))
          (Single.kBaseDimensions first)) then
    if index < Single.kBaseDimensions first then
      feature.ShiftIndex (kBaseDimensions remaining)
    else
      feature.ShiftIndex (sub32 (GetDimensions remaining) (kBaseDimensions remaining))
  else .error .headRecordRange

/-- The `else` branch of lines 48-65: `Head` is called with the index `head_index`
(`base_index - boundary` in the source) and the records it appended are shifted. -/
def headBranch (first : FeatureType) (remaining : FeatureSet) (head_index : Nat)
    (training_features : List TrainingFeature) (base_dimensions : Nat) : Outcome :=
  let start := training_features.length
  let appended := Single.AppendTrainingFeatures first head_index training_features
    base_dimensions
  match appended.failure with
  | some _ => appended
  | none => loopFrom (body first remaining base_dimensions) start appended.training_features

/-- `AppendTrainingFeatures` with an explicit `base_dimensions`, lines 38-66 and 88-105. -/
def AppendTrainingFeatures : FeatureSet → Nat → List TrainingFeature → Nat → Outcome
  | .single t, base_index, training_features, base_dimensions =>
    Single.AppendTrainingFeatures t base_index training_features base_dimensions
  | .cons first remaining, base_index, training_features, base_dimensions =>
    if base_index < kBaseDimensions (.cons first remaining) then
      let boundary := remaining.kDimensions
      if base_index < boundary then
        AppendTrainingFeatures remaining base_index training_features base_dimensions
      else
        headBranch first remaining (sub32 base_index boundary) training_features
          base_dimensions
    else ⟨training_features, some .baseIndexRange⟩

/-- `AppendTrainingFeatures` called without its third argument: the default
argument `base_dimensions = kBaseDimensions` of lines 39 and 89. -/
def AppendTrainingFeaturesDefault (fs : FeatureSet) (base_index : Nat)
    (training_features : List TrainingFeature) : Outcome :=
  AppendTrainingFeatures fs base_index training_features (kBaseDimensions fs)

end Factorizer

/-! ## The layout of the two index spaces

Closed forms for what the recursion computes; the theorems below compare the
source's `AppendTrainingFeatures` with them. -/

namespace FeatureSet

/-- The sum of the members' compact dimensionalities, as a natural number. -/
def sumCompact (fs : FeatureSet) : Nat := (fs.members.map FeatureType.kDimensions).sum

/-- The sum of the members' `GetDimensions()`, as a natural number. -/
def sumExpanded (fs : FeatureSet) : Nat := (fs.members.map FeatureType.GetDimensions).sum

/-- The member at position `k` of the list (position 0 is the first type; past the
end, the last type). -/
def member : FeatureSet → Nat → FeatureType
  | single t, _ => t
  | cons first _, 0 => first
  | cons _ remaining, k + 1 => remaining.member k

/-- The sum of the compact dimensionalities of the members after position `k`. -/
def compactAfter : FeatureSet → Nat → Nat
  | single _, _ => 0
  | cons _ remaining, 0 => remaining.sumCompact
  | cons _ remaining, k + 1 => remaining.compactAfter k

/-- The sum of the extra factors `GetDimensions() - kDimensions` of the members
after position `k`. -/
def extraAfter : FeatureSet → Nat → Nat
  | single _, _ => 0
  | cons _ remaining, 0 => remaining.sumExpanded - remaining.sumCompact
  | cons _ remaining, k + 1 => remaining.extraAfter k

/-- The position of the member whose range holds the compact index `base_index`:
the remaining types own the low indices, the first type the high ones. -/
def memberOf : FeatureSet → Nat → Nat
  | single _, _ => 0
  | cons _ remaining, base_index =>
    if base_index < remaining.sumCompact then remaining.memberOf base_index + 1 else 0

/-- The index local to its member of the compact index `base_index`. -/
def localIndex : FeatureSet → Nat → Nat
  | single _, base_index => base_index
  | cons _ remaining, base_index =>
    if base_index < remaining.sumCompact then remaining.localIndex base_index
    else base_index - remaining.sumCompact

/-- Every member's compact dimensionality is at most its `GetDimensions()`. -/
def CompactLeExpanded (fs : FeatureSet) : Prop :=
  ∀ t ∈ fs.members, t.kDimensions ≤ t.GetDimensions

/-- Every leaf factorizer appends, for a compact index of its own range, only
records whose index is below its `GetDimensions()` (spec section 4.2). -/
def LeavesInRange (fs : FeatureSet) : Prop :=
  ∀ t ∈ fs.members, ∀ i, i < t.kDimensions →
    ∀ f ∈ t.AppendTrainingFeatures i, f.GetIndex < t.GetDimensions

/-- The record `feature`, appended by the leaf of member `k`, as the composite call
with `base_dimensions` leaves it: a pass-through record moves up by the compact
sizes after `k`, a factor record moves to `base_dimensions` plus its rank among the
factors of `k` plus the extra factors after `k`. -/
def placed (fs : FeatureSet) (k base_dimensions : Nat) (feature : TrainingFeature) :
    TrainingFeature :=
  if feature.GetIndex < (fs.member k).kDimensions then
    ⟨feature.index_and_count_ + 256 * fs.compactAfter k⟩
  else
    ⟨feature.index_and_count_ + 256 * (base_dimensions + fs.extraAfter k)
      - 256 * (fs.member k).kDimensions⟩

end FeatureSet

namespace Single

/-- The record `feature` as the base case leaves it (lines 102-103). -/
def placed (t : FeatureType) (base_dimensions : Nat) (feature : TrainingFeature) :
    TrainingFeature :=
  if t.kDimensions ≤ feature.GetIndex then
    ⟨feature.index_and_count_ + 256 * base_dimensions - 256 * t.kDimensions⟩
  else feature

end Single

namespace FeatureSet

/-- The index at which the composite call with `base_dimensions` leaves a record
that the leaf of member `k` appended with index `j`. -/
def placedIndex (fs : FeatureSet) (k base_dimensions j : Nat) : Nat :=
  if j < (fs.member k).kDimensions then j + fs.compactAfter k
  else base_dimensions + (j - (fs.member k).kDimensions) + fs.extraAfter k

end FeatureSet

/-! ## Concrete feature sets -/

namespace Sample

/-- The record that `TrainingFeature(index)` builds for a small index: count 1. -/
def record (index : Nat) : TrainingFeature := ⟨256 * index + 1⟩

/-- A feature type with 3 compact and 5 expanded dimensions; its leaf appends the
pass-through record and both factors. -/
def typeA : FeatureType := ⟨3, 5, fun i => [record i, record 3, record 4]⟩

/-- A feature type with 2 compact dimensions and no factors. -/
def typeB : FeatureType := ⟨2, 2, fun i => [record i]⟩

/-- A feature type with 2 compact and 4 expanded dimensions. -/
def typeC : FeatureType := ⟨2, 4, fun i => [record i, record (2 + i)]⟩

/-- The list `[A, B]`. -/
def setAB : FeatureSet := .cons typeA (.single typeB)

/-- The list `[A, C]`. -/
def setAC : FeatureSet := .cons typeA (.single typeC)

/-- The list `[C, A, B]`. -/
def setCAB : FeatureSet := .cons typeC setAB

/-- A feature type whose `GetDimensions()` is `2 ^ 31`. -/
def typeHuge : FeatureType := ⟨1, 2 ^ 31, fun _ => [record 5]⟩

/-- Two such types: their expanded sizes sum to `2 ^ 32`. -/
def setHuge : FeatureSet := .cons typeHuge (.single typeHuge)

/-- A feature type with 1 compact and 2 expanded dimensions. -/
def typeSmall : FeatureType := ⟨1, 2, fun _ => [record 0, record 1]⟩

/-- A feature type without factors that fills the whole index budget. -/
def typeWide : FeatureType := ⟨2 ^ 24, 2 ^ 24, fun i => [record i]⟩

/-- The list `[typeSmall, typeWide]`: more dimensions than a record can index. -/
def setWide : FeatureSet := .cons typeSmall (.single typeWide)

/-- A feature type with a single dimension and no factors. -/
def typeUnit : FeatureType := ⟨1, 1, fun i => [record i]⟩

/-- The list `[typeUnit, typeWide]`: `2 ^ 24 + 1` compact dimensions. -/
def setUnitWide : FeatureSet := .cons typeUnit (.single typeWide)

end Sample

namespace FeatureSet

/-- The closed form of the re-basing in the words of the specification: for the
list `t_0 .. t_{n-1}` with compact sizes `c_m` and expanded sizes `d_m`, a leaf record
of member `k` with index `j < c_k` ends at `j + Σ_{m>k} c_m`, and one with index
`j ≥ c_k` ends at `B + (j - c_k) + Σ_{m>k} (d_m - c_m)`. -/
def closedFormIndex (fs : FeatureSet) (k base_dimensions j : Nat) : Nat :=
  if j < (fs.member k).kDimensions then
    j + ((fs.members.drop (k + 1)).map FeatureType.kDimensions).sum
  else
    base_dimensions + (j - (fs.member k).kDimensions)
      + ((fs.members.drop (k + 1)).map (fun t => t.GetDimensions - t.kDimensions)).sum

end FeatureSet

namespace Factorizer

/-- The leaf that a call of `AppendTrainingFeatures` reaches, and the index it is
called with: the comparisons of lines 45-51 down to the base case of line 94. -/
def selected : FeatureSet → Nat → FeatureType × Nat
  | .single t, base_index => (t, base_index)
  | .cons first remaining, base_index =>
    if base_index < remaining.kDimensions then selected remaining base_index
    else (first, sub32 base_index remaining.kDimensions)

end Factorizer

namespace Sample

/-- A feature type with `GetDimensions() = 2 ^ 31` whose leaf appends the record with
the largest index a record can hold. -/
def typeHugeEdge : FeatureType := ⟨1, 2 ^ 31, fun _ => [record (2 ^ 24 - 1)]⟩

/-- Two such types: their expanded sizes sum to `2 ^ 32`. -/
def setHugeEdge : FeatureSet := .cons typeHugeEdge (.single typeHugeEdge)

end Sample

/-! ## Messages (trainer.h lines 77-105) -/

/-- The C++ standard library's `std::to_string` on an unsigned value: its decimal
digits, most significant first. A `std::string` is the list of its characters. -/
def to_string (n : Nat) : List Char :=
  if n = 0 then ['0'] else ((Nat.digits 10 n).reverse).map Nat.digitChar

/-- The struct `Message`, lines 79-87; the two counters are `std::uint32_t`. -/
structure Message where
  name : List Char
  value : List Char
  num_peekers : Nat
  num_receivers : Nat
  deriving DecidableEq, Repr

namespace Message

/-- The constructor `Message(name, value)`, lines 80-81. -/
def create (name value : List Char) : Message := ⟨name, value, 0, 0⟩

end Message

/-- `ReceiveMessage(name, message)`, lines 91-105: the returned flag and the message
as the call leaves it. -/
def ReceiveMessage (name : List Char) (message : Message) : Bool × Message :=
  let subscript := ['['] ++ to_string message.num_peekers ++ [']']
  let num_peekers :=
    if message.name.take (name.length + 1) = name ++ ['['] then
      u32 (message.num_peekers + 1)
    else message.num_peekers
  if message.name = name ∨ message.name = name ++ subscript then
    (true, ⟨message.name, message.value, num_peekers, u32 (message.num_receivers + 1)⟩)
  else
    (false, ⟨message.name, message.value, num_peekers, message.num_receivers⟩)

/-- The message after `calls` successive calls `ReceiveMessage(name, message)`. -/
def afterCalls (name : List Char) (message : Message) : Nat → Message
  | 0 => message
  | calls + 1 => (ReceiveMessage name (afterCalls name message calls)).2

/-- What call number `i`, counting from 0, of a sequence of successive calls
`ReceiveMessage(name, message)` returns. -/
def callResult (name : List Char) (message : Message) (i : Nat) : Bool :=
  (ReceiveMessage name (afterCalls name message i)).1

/-- The number of calls among the first `calls` that returned true. -/
def acceptedCalls (name : List Char) (message : Message) (calls : Nat) : Nat :=
  ((List.range calls).filter (fun i => callResult name message i)).length

/-! # Theorems -/

/-! ## Packed words -/

namespace TrainingFeature

theorem GetIndex_eq (f : TrainingFeature) : f.GetIndex = f.index_and_count_ / 256 := by
  simp [GetIndex, kCountBits, kIndexBits, Nat.shiftRight_eq_div_pow]

theorem GetCount_eq (f : TrainingFeature) : f.GetCount = f.index_and_count_ % 256 := by
  have h : (1 <<< kCountBits) - 1 = 2 ^ 8 - 1 := by decide
  rw [GetCount, h, Nat.and_pow_two_sub_one_eq_mod]

/-- A shift that stays inside the index budget adds `256 * offset` to the word. -/
theorem ShiftIndex_ok (f : TrainingFeature) (offset : Nat)
    (h : f.GetIndex + offset < 2 ^ 24) :
    f.ShiftIndex offset = .ok ⟨f.index_and_count_ + 256 * offset⟩ := by
  rw [GetIndex_eq] at h
  have e1 : (1 : Nat) <<< kIndexBits = 2 ^ 24 := by decide
  have e2 : offset <<< kCountBits = offset * 256 := by
    simp [kCountBits, kIndexBits, Nat.shiftLeft_eq]
  unfold ShiftIndex
  rw [e1, e2, GetIndex_eq]
  unfold u32
  have a1 : (f.index_and_count_ / 256 + offset) % 2 ^ 32 < 2 ^ 24 := by omega
  have a2 : (f.index_and_count_ + offset * 256 % 2 ^ 32) % 2 ^ 32
      = f.index_and_count_ + 256 * offset := by omega
  rw [if_pos a1, a2]

/-- A shift by the `IndexType` difference `b - c`, which may have wrapped. -/
theorem ShiftIndex_sub32 (f : TrainingFeature) (b c : Nat) (hb : b < 2 ^ 32)
    (hc : c ≤ f.GetIndex) (h : f.GetIndex + b < 2 ^ 24 + c) :
    f.ShiftIndex (sub32 b c) = .ok ⟨f.index_and_count_ + 256 * b - 256 * c⟩ := by
  rw [GetIndex_eq] at h hc
  have e1 : (1 : Nat) <<< kIndexBits = 2 ^ 24 := by decide
  have e2 : ∀ n : Nat, n <<< kCountBits = n * 256 := by
    intro n; simp [kCountBits, kIndexBits, Nat.shiftLeft_eq]
  unfold ShiftIndex
  rw [e1, e2, GetIndex_eq]
  unfold u32 sub32
  have a1 : (f.index_and_count_ / 256 + (b + (2 ^ 32 - c % 2 ^ 32)) % 2 ^ 32) % 2 ^ 32
      < 2 ^ 24 := by omega
  have a2 : (f.index_and_count_ + (b + (2 ^ 32 - c % 2 ^ 32)) % 2 ^ 32 * 256 % 2 ^ 32)
      % 2 ^ 32 = f.index_and_count_ + 256 * b - 256 * c := by omega
  rw [if_pos a1, a2]

/-- A shift that leaves the index budget fails. -/
theorem ShiftIndex_overflow (f : TrainingFeature) (offset : Nat)
    (h : 2 ^ 24 ≤ f.GetIndex + offset) (h32 : f.GetIndex + offset < 2 ^ 32) :
    f.ShiftIndex offset = .error .shiftOverflow := by
  have e1 : (1 : Nat) <<< kIndexBits = 2 ^ 24 := by decide
  unfold ShiftIndex
  rw [e1]
  unfold u32
  have a1 : ¬ (f.GetIndex + offset) % 2 ^ 32 < 2 ^ 24 := by omega
  rw [if_neg a1]

end TrainingFeature

/-! ## The loops -/

theorem forEachFrom_map (body : TrainingFeature → Except Failure TrainingFeature)
    (g : TrainingFeature → TrainingFeature) (l : List TrainingFeature)
    (h : ∀ f ∈ l, body f = .ok (g f)) : forEachFrom body l = ⟨l.map g, none⟩ := by
  induction l with
  | nil => rfl
  | cons a rest ih =>
    have ha := h a (List.mem_cons_self a rest)
    have hr := ih (fun f hf => h f (List.mem_cons_of_mem a hf))
    simp [forEachFrom, ha, hr]

theorem loopFrom_append (body : TrainingFeature → Except Failure TrainingFeature)
    (g : TrainingFeature → TrainingFeature) (tf l : List TrainingFeature)
    (h : ∀ f ∈ l, body f = .ok (g f)) :
    loopFrom body tf.length (tf ++ l) = ⟨tf ++ l.map g, none⟩ := by
  simp [loopFrom, forEachFrom_map body g l h]

/-! ## The base case -/

namespace Single

theorem body_ok (t : FeatureType) (B : Nat) (f : TrainingFeature) (hB : B < 2 ^ 32)
    (hd : f.GetIndex < t.GetDimensions)
    (hs : t.kDimensions ≤ f.GetIndex → f.GetIndex + B < 2 ^ 24 + t.kDimensions) :
    body t B f = .ok (placed t B f) := by
  unfold body placed kBaseDimensions
  rw [if_pos hd]
  by_cases hc : t.kDimensions ≤ f.GetIndex
  · rw [if_pos hc, if_pos hc]
    exact TrainingFeature.ShiftIndex_sub32 f B t.kDimensions hB hc (hs hc)
  · rw [if_neg hc, if_neg hc]

theorem base_append_eq (t : FeatureType) (i B : Nat) (tf : List TrainingFeature)
    (hi : i < t.kDimensions) (hB : B < 2 ^ 32)
    (hd : ∀ f ∈ t.AppendTrainingFeatures i, f.GetIndex < t.GetDimensions)
    (hs : ∀ f ∈ t.AppendTrainingFeatures i, t.kDimensions ≤ f.GetIndex →
      f.GetIndex + B < 2 ^ 24 + t.kDimensions) :
    AppendTrainingFeatures t i tf B
      = ⟨tf ++ (t.AppendTrainingFeatures i).map (placed t B), none⟩ := by
  unfold AppendTrainingFeatures kBaseDimensions
  rw [if_pos hi]
  exact loopFrom_append _ _ tf _ (fun f hf => body_ok t B f hB (hd f hf) (hs f hf))

end Single

/-! ## Sizes -/

namespace FeatureSet

theorem sumCompact_cons (first : FeatureType) (remaining : FeatureSet) :
    (cons first remaining).sumCompact = first.kDimensions + remaining.sumCompact := by
  simp [sumCompact, members]

theorem sumExpanded_cons (first : FeatureType) (remaining : FeatureSet) :
    (cons first remaining).sumExpanded = first.GetDimensions + remaining.sumExpanded := by
  simp [sumExpanded, members]

theorem kDimensions_eq (fs : FeatureSet) (h : fs.sumCompact < 2 ^ 32) :
    fs.kDimensions = fs.sumCompact := by
  induction fs with
  | single t => simp [kDimensions, sumCompact, members]
  | cons first remaining ih =>
    rw [sumCompact_cons] at h ⊢
    rw [kDimensions, ih (by omega), u32]
    omega

theorem sumCompact_le_sumExpanded (fs : FeatureSet) (h : fs.CompactLeExpanded) :
    fs.sumCompact ≤ fs.sumExpanded := by
  induction fs with
  | single t =>
    have := h t (by simp [members])
    simpa [sumCompact, sumExpanded, members] using this
  | cons first remaining ih =>
    have h0 := h first (by simp [members])
    have hr := ih (fun t ht => h t (by simp [members, ht]))
    rw [sumCompact_cons, sumExpanded_cons]
    omega

end FeatureSet

namespace Factorizer

theorem GetDimensions_eq (fs : FeatureSet) (h : fs.sumExpanded < 2 ^ 32) :
    GetDimensions fs = fs.sumExpanded := by
  induction fs with
  | single t => simp [GetDimensions, Single.GetDimensions, FeatureSet.sumExpanded,
      FeatureSet.members]
  | cons first remaining ih =>
    rw [FeatureSet.sumExpanded_cons] at h ⊢
    rw [GetDimensions, ih (by omega), u32, Single.GetDimensions]
    omega

end Factorizer

/-! ## The head branch -/

theorem forEachFrom_map_map (body : TrainingFeature → Except Failure TrainingFeature)
    (p q : TrainingFeature → TrainingFeature) (l : List TrainingFeature)
    (h : ∀ f ∈ l, body (p f) = .ok (q f)) :
    forEachFrom body (l.map p) = ⟨l.map q, none⟩ := by
  induction l with
  | nil => rfl
  | cons a rest ih =>
    have ha := h a (List.mem_cons_self a rest)
    have hr := ih (fun f hf => h f (List.mem_cons_of_mem a hf))
    simp [forEachFrom, ha, hr]

theorem loopFrom_append_map (body : TrainingFeature → Except Failure TrainingFeature)
    (p q : TrainingFeature → TrainingFeature) (tf l : List TrainingFeature)
    (h : ∀ f ∈ l, body (p f) = .ok (q f)) :
    loopFrom body tf.length (tf ++ l.map p) = ⟨tf ++ l.map q, none⟩ := by
  simp [loopFrom, forEachFrom_map_map body p q l h]

namespace Factorizer

/-- The head branch's loop body on a record the base case has just placed. -/
theorem body_placed (first : FeatureType) (remaining : FeatureSet) (B : Nat)
    (f : TrainingFeature)
    (hcd : first.kDimensions ≤ first.GetDimensions)
    (hrem : remaining.sumCompact ≤ remaining.sumExpanded)
    (hB : first.kDimensions + remaining.sumCompact ≤ B)
    (hbound : B + (first.GetDimensions + remaining.sumExpanded)
      ≤ 2 ^ 24 + (first.kDimensions + remaining.sumCompact))
    (hf : f.GetIndex < first.GetDimensions) :
    body first remaining B (Single.placed first B f)
      = .ok ((FeatureSet.cons first remaining).placed 0 B f) := by
  have hk : kBaseDimensions remaining = remaining.sumCompact :=
    FeatureSet.kDimensions_eq remaining (by omega)
  have hg : GetDimensions remaining = remaining.sumExpanded :=
    GetDimensions_eq remaining (by omega)
  have hfi := TrainingFeature.GetIndex_eq f
  unfold body Single.placed FeatureSet.placed
  simp only [FeatureSet.member, FeatureSet.compactAfter, FeatureSet.extraAfter,
    Single.GetDimensions, Single.kBaseDimensions, hk, hg]
  by_cases hc : first.kDimensions ≤ f.GetIndex
  · have hc2 : ¬ f.GetIndex < first.kDimensions := by omega
    rw [if_pos hc, if_neg hc2]
    generalize hg2 : (⟨f.index_and_count_ + 256 * B - 256 * first.kDimensions⟩ :
      TrainingFeature) = g
    have hgw : g.index_and_count_ = f.index_and_count_ + 256 * B - 256 * first.kDimensions := by
      rw [← hg2]
    have hgi : g.GetIndex = f.GetIndex + B - first.kDimensions := by
      rw [TrainingFeature.GetIndex_eq, hgw]; omega
    have hs : sub32 (u32 (B + first.GetDimensions)) first.kDimensions
        = B + first.GetDimensions - first.kDimensions := by
      unfold sub32 u32; omega
    have hcond : g.GetIndex < first.GetDimensions ∨
        (g.GetIndex ≥ B ∧ g.GetIndex < sub32 (u32 (B + first.GetDimensions))
          first.kDimensions) := by
      right; rw [hs]; omega
    have hn : ¬ g.GetIndex < first.kDimensions := by omega
    rw [if_pos hcond, if_neg hn,
      TrainingFeature.ShiftIndex_sub32 g remaining.sumExpanded remaining.sumCompact
        (by omega) (by omega) (by omega)]
    congr 2
    omega
  · have hc2 : f.GetIndex < first.kDimensions := by omega
    rw [if_neg hc, if_pos hc2, if_pos (Or.inl hf), if_pos hc2,
      TrainingFeature.ShiftIndex_ok f remaining.sumCompact (by omega)]

/-- The head branch as a whole: the records of the first type's leaf, placed. -/
theorem headBranch_eq (first : FeatureType) (remaining : FeatureSet) (j B : Nat)
    (tf : List TrainingFeature)
    (hcd : first.kDimensions ≤ first.GetDimensions)
    (hrem : remaining.sumCompact ≤ remaining.sumExpanded)
    (hB : first.kDimensions + remaining.sumCompact ≤ B)
    (hbound : B + (first.GetDimensions + remaining.sumExpanded)
      ≤ 2 ^ 24 + (first.kDimensions + remaining.sumCompact))
    (hj : j < first.kDimensions)
    (hleaf : ∀ f ∈ first.AppendTrainingFeatures j, f.GetIndex < first.GetDimensions) :
    headBranch first remaining j tf B
      = ⟨tf ++ (first.AppendTrainingFeatures j).map
          ((FeatureSet.cons first remaining).placed 0 B), none⟩ := by
  have hs := Single.base_append_eq first j B tf hj (by omega) hleaf
    (fun f hf _ => by have := hleaf f hf; omega)
  unfold headBranch
  simp only [hs]
  exact loopFrom_append_map _ _ _ tf _
    (fun f hf => body_placed first remaining B f hcd hrem hB hbound (hleaf f hf))

/-- The composite call in closed form: the records of the addressed member's
leaf, in order, each placed by `FeatureSet.placed`. -/
theorem append_eq (fs : FeatureSet) (B : Nat) (hle : fs.CompactLeExpanded)
    (hleaf : fs.LeavesInRange) (hB : fs.sumCompact ≤ B)
    (hbound : B + fs.sumExpanded ≤ 2 ^ 24 + fs.sumCompact)
    (i : Nat) (hi : i < fs.sumCompact) (tf : List TrainingFeature) :
    AppendTrainingFeatures fs i tf B
      = ⟨tf ++ ((fs.member (fs.memberOf i)).AppendTrainingFeatures (fs.localIndex i)).map
          (fs.placed (fs.memberOf i) B), none⟩ := by
  induction fs generalizing i with
  | single t =>
    have hcd : t.kDimensions ≤ t.GetDimensions := hle t (by simp [FeatureSet.members])
    have hi2 : i < t.kDimensions := by
      simpa [FeatureSet.sumCompact, FeatureSet.members] using hi
    have hB2 : t.kDimensions ≤ B := by
      simpa [FeatureSet.sumCompact, FeatureSet.members] using hB
    have hb2 : B + t.GetDimensions ≤ 2 ^ 24 + t.kDimensions := by
      simpa [FeatureSet.sumCompact, FeatureSet.sumExpanded, FeatureSet.members] using hbound
    have hl : ∀ f ∈ t.AppendTrainingFeatures i, f.GetIndex < t.GetDimensions :=
      hleaf t (by simp [FeatureSet.members]) i hi2
    rw [AppendTrainingFeatures,
      Single.base_append_eq t i B tf hi2 (by omega) hl (fun f hf _ => by have := hl f hf; omega)]
    simp only [FeatureSet.member, FeatureSet.memberOf, FeatureSet.localIndex]
    congr 2
    apply List.map_congr_left
    intro f _
    unfold Single.placed FeatureSet.placed
    simp only [FeatureSet.member, FeatureSet.compactAfter, FeatureSet.extraAfter]
    by_cases hc : t.kDimensions ≤ f.GetIndex
    · rw [if_pos hc, if_neg (by omega)]; rfl
    · rw [if_neg hc, if_pos (by omega)]; rfl
  | cons first remaining ih =>
    have hcd : first.kDimensions ≤ first.GetDimensions :=
      hle first (by simp [FeatureSet.members])
    have hle2 : remaining.CompactLeExpanded :=
      fun t ht => hle t (by simp [FeatureSet.members, ht])
    have hleaf2 : remaining.LeavesInRange :=
      fun t ht => hleaf t (by simp [FeatureSet.members, ht])
    have hrem := FeatureSet.sumCompact_le_sumExpanded remaining hle2
    rw [FeatureSet.sumCompact_cons] at hB hbound hi
    rw [FeatureSet.sumExpanded_cons] at hbound
    have hk : remaining.kDimensions = remaining.sumCompact :=
      FeatureSet.kDimensions_eq remaining (by omega)
    have hk2 : kBaseDimensions (.cons first remaining)
        = first.kDimensions + remaining.sumCompact := by
      rw [kBaseDimensions, FeatureSet.kDimensions, hk, u32]; omega
    rw [AppendTrainingFeatures, if_pos (by rw [hk2]; exact hi)]
    simp only [hk]
    by_cases hlt : i < remaining.sumCompact
    · rw [if_pos hlt, ih hle2 hleaf2 (by omega) (by omega) i hlt]
      simp only [FeatureSet.memberOf, FeatureSet.localIndex, if_pos hlt, FeatureSet.member]
      rfl
    · rw [if_neg hlt]
      have hsub : sub32 i remaining.sumCompact = i - remaining.sumCompact := by
        unfold sub32; omega
      have hj : i - remaining.sumCompact < first.kDimensions := by omega
      rw [hsub, headBranch_eq first remaining _ B tf hcd hrem hB hbound hj
        (hleaf first (by simp [FeatureSet.members]) _ hj)]
      simp only [FeatureSet.memberOf, FeatureSet.localIndex, if_neg hlt, FeatureSet.member]

end Factorizer

/-! ## Facts about the layout -/

namespace FeatureSet

theorem member_mem (fs : FeatureSet) (k : Nat) : fs.member k ∈ fs.members := by
  induction fs generalizing k with
  | single t => simp [member, members]
  | cons first remaining ih =>
    cases k with
    | zero => simp [member, members]
    | succ k => simp [member, members, ih k]

theorem compactAfter_add_le (fs : FeatureSet) (k : Nat) :
    fs.compactAfter k + (fs.member k).kDimensions ≤ fs.sumCompact := by
  induction fs generalizing k with
  | single t => simp [member, compactAfter, sumCompact, members]
  | cons first remaining ih =>
    rw [sumCompact_cons]
    cases k with
    | zero => simp only [member, compactAfter]; omega
    | succ k => have := ih k; simp only [member, compactAfter]; omega

theorem extraAfter_add_le (fs : FeatureSet) (hle : fs.CompactLeExpanded) (k : Nat) :
    fs.extraAfter k + (fs.member k).GetDimensions + fs.sumCompact
      ≤ fs.sumExpanded + (fs.member k).kDimensions := by
  induction fs generalizing k with
  | single t => simp [member, extraAfter, sumCompact, sumExpanded, members]
  | cons first remaining ih =>
    have h0 : first.kDimensions ≤ first.GetDimensions := hle first (by simp [members])
    have hle2 : remaining.CompactLeExpanded := fun t ht => hle t (by simp [members, ht])
    have hrem := sumCompact_le_sumExpanded remaining hle2
    rw [sumCompact_cons, sumExpanded_cons]
    cases k with
    | zero => simp only [member, extraAfter]; omega
    | succ k => have := ih hle2 k; simp only [member, extraAfter]; omega

theorem placed_GetIndex (fs : FeatureSet) (k B : Nat) (f : TrainingFeature) :
    (fs.placed k B f).GetIndex = fs.placedIndex k B f.GetIndex := by
  unfold placed placedIndex
  by_cases h : f.GetIndex < (fs.member k).kDimensions
  · rw [if_pos h, if_pos h, TrainingFeature.GetIndex_eq, TrainingFeature.GetIndex_eq]
    simp only
    omega
  · rw [if_neg h, if_neg h]
    rw [TrainingFeature.GetIndex_eq] at h
    rw [TrainingFeature.GetIndex_eq, TrainingFeature.GetIndex_eq]
    simp only
    omega

theorem placed_GetCount (fs : FeatureSet) (k B : Nat) (f : TrainingFeature) :
    (fs.placed k B f).GetCount = f.GetCount := by
  unfold placed
  by_cases h : f.GetIndex < (fs.member k).kDimensions
  · rw [if_pos h, TrainingFeature.GetCount_eq, TrainingFeature.GetCount_eq]
    simp only
    omega
  · rw [if_neg h]
    rw [TrainingFeature.GetIndex_eq] at h
    rw [TrainingFeature.GetCount_eq, TrainingFeature.GetCount_eq]
    simp only
    omega

/-- Under `CompactLeExpanded`, every placed index of a leaf record below the
member's `GetDimensions()` is a pass-through index below the compact total or a
factor index in `[B, B + sumExpanded - sumCompact)`. -/
theorem placedIndex_range (fs : FeatureSet) (hle : fs.CompactLeExpanded) (k B j : Nat)
    (hj : j < (fs.member k).GetDimensions) :
    (j < (fs.member k).kDimensions → fs.placedIndex k B j < fs.sumCompact) ∧
    ((fs.member k).kDimensions ≤ j → B ≤ fs.placedIndex k B j ∧
      fs.placedIndex k B j + fs.sumCompact < B + fs.sumExpanded) := by
  have h1 := compactAfter_add_le fs k
  have h2 := extraAfter_add_le fs hle k
  unfold placedIndex
  constructor
  · intro h; rw [if_pos h]; omega
  · intro h; rw [if_neg (by omega)]; omega

end FeatureSet

theorem forall₂_map_right (R : TrainingFeature → TrainingFeature → Prop)
    (p : TrainingFeature → TrainingFeature) (l : List TrainingFeature)
    (h : ∀ f ∈ l, R f (p f)) : List.Forall₂ R l (l.map p) := by
  induction l with
  | nil => exact List.Forall₂.nil
  | cons a rest ih =>
    exact List.Forall₂.cons (h a (List.mem_cons_self a rest))
      (ih (fun f hf => h f (List.mem_cons_of_mem a hf)))

namespace FeatureSet

theorem localIndex_lt (fs : FeatureSet) (i : Nat) (hi : i < fs.sumCompact) :
    fs.localIndex i < (fs.member (fs.memberOf i)).kDimensions := by
  induction fs with
  | single t => simpa [localIndex, memberOf, member, sumCompact, members] using hi
  | cons first remaining ih =>
    rw [sumCompact_cons] at hi
    by_cases h : i < remaining.sumCompact
    · simp only [localIndex, memberOf, if_pos h, member]; exact ih h
    · simp only [localIndex, memberOf, if_neg h, member]; omega

theorem localIndex_add_compactAfter (fs : FeatureSet) (i : Nat) (hi : i < fs.sumCompact) :
    fs.localIndex i + fs.compactAfter (fs.memberOf i) = i := by
  induction fs with
  | single t => simp [localIndex, memberOf, compactAfter]
  | cons first remaining ih =>
    by_cases h : i < remaining.sumCompact
    · simp only [localIndex, memberOf, if_pos h, compactAfter]; exact ih h
    · simp only [localIndex, memberOf, if_neg h, compactAfter]; omega

theorem memberOf_lt (fs : FeatureSet) (i : Nat) : fs.memberOf i < fs.members.length := by
  induction fs with
  | single t => simp [memberOf, members]
  | cons first remaining ih =>
    by_cases h : i < remaining.sumCompact
    · simp only [memberOf, if_pos h, members, List.length_cons]; omega
    · simp only [memberOf, if_neg h, members, List.length_cons]; omega

/-- The compact index built from a member and a local index is routed back to them. -/
theorem memberOf_localIndex_of_add (fs : FeatureSet) (k j : Nat)
    (hk : k < fs.members.length) (hj : j < (fs.member k).kDimensions) :
    fs.memberOf (j + fs.compactAfter k) = k ∧ fs.localIndex (j + fs.compactAfter k) = j := by
  induction fs generalizing k with
  | single t =>
    have : k = 0 := by simpa [members] using hk
    subst this
    simp [memberOf, localIndex, compactAfter]
  | cons first remaining ih =>
    cases k with
    | zero =>
      have h : ¬ j + remaining.sumCompact < remaining.sumCompact := by omega
      simp only [memberOf, localIndex, compactAfter, if_neg h]
      exact ⟨trivial, by omega⟩
    | succ k =>
      have hk2 : k < remaining.members.length := by
        simpa [members] using hk
      have hj2 : j < (remaining.member k).kDimensions := hj
      have hb := compactAfter_add_le remaining k
      have h : j + remaining.compactAfter k < remaining.sumCompact := by omega
      have := ih k hk2 hj2
      simp only [memberOf, localIndex, compactAfter, if_pos h]
      omega

end FeatureSet

/-! ## Sample sets meet the hypotheses -/

namespace Sample

theorem setAB_compactLeExpanded : setAB.CompactLeExpanded := by
  intro t ht
  simp only [setAB, FeatureSet.members, List.mem_cons, List.mem_singleton, List.mem_nil_iff,
    or_false] at ht
  rcases ht with rfl | rfl <;> decide

theorem setAB_leavesInRange : setAB.LeavesInRange := by
  intro t ht i hi f hf
  simp only [setAB, FeatureSet.members, List.mem_cons, List.mem_singleton, List.mem_nil_iff,
    or_false] at ht
  rcases ht with rfl | rfl
  · have hi3 : i < 3 := hi
    simp only [typeA, List.mem_cons, List.mem_singleton, List.mem_nil_iff, or_false] at hf
    rcases hf with rfl | rfl | rfl
    · rw [TrainingFeature.GetIndex_eq]; simp only [record, typeA]; omega
    · decide
    · decide
  · have hi2 : i < 2 := hi
    simp only [typeB, List.mem_cons, List.mem_singleton, List.mem_nil_iff, or_false] at hf
    subst hf
    rw [TrainingFeature.GetIndex_eq]; simp only [record, typeB]; omega

end Sample

/-! ## Claims about the composite call -/

namespace Factorizer

/-- C1, as stated, fails: for the list of two feature types with compact size 1 and
`GetDimensions() = 2 ^ 31`, whose leaves append the record with index 5, every
hypothesis of the claim holds (`GetDimensions()` of the list wraps to 0), the
default call with compact index 0 succeeds and appends the record with index 6,
which is not below `GetDimensions()`. -/
theorem default_index_range_fails_when_dimensions_wrap :
    Sample.setHuge.CompactLeExpanded ∧ Sample.setHuge.LeavesInRange ∧
    GetDimensions Sample.setHuge ≤ 2 ^ 24 ∧ 0 < kBaseDimensions Sample.setHuge ∧
    AppendTrainingFeaturesDefault Sample.setHuge 0 [] = ⟨[Sample.record 6], none⟩ ∧
    ¬ (Sample.record 6).GetIndex < GetDimensions Sample.setHuge := by
  refine ⟨?_, ?_, by decide, by decide, by decide, by decide⟩
  · intro t ht
    simp only [Sample.setHuge, FeatureSet.members, List.mem_cons, List.mem_singleton,
      List.mem_nil_iff, or_false, or_self] at ht
    subst ht; decide
  · intro t ht i _ f hf
    simp only [Sample.setHuge, FeatureSet.members, List.mem_cons, List.mem_singleton,
      List.mem_nil_iff, or_false, or_self] at ht
    subst ht
    simp only [Sample.typeHuge, List.mem_singleton] at hf
    subst hf; decide

/-- C1, amended: for every feature-type list whose members have compact size at most
expanded size, whose leaves append only records with index below their
`GetDimensions()`, and whose expanded sizes sum to at most `2 ^ 24`, and for every
compact index below `kBaseDimensions`, the call with the default `base_dimensions`
completes, leaves the sink as it was followed by the new records, and every new
record has its index below `GetDimensions()`, which is that sum. -/
theorem default_index_lt_GetDimensions (fs : FeatureSet) (hle : fs.CompactLeExpanded)
    (hleaf : fs.LeavesInRange) (hdim : fs.sumExpanded ≤ 2 ^ 24)
    (base_index : Nat) (hi : base_index < kBaseDimensions fs)
    (training_features : List TrainingFeature) :
    GetDimensions fs = fs.sumExpanded ∧
    ∃ appended, AppendTrainingFeaturesDefault fs base_index training_features
        = ⟨training_features ++ appended, none⟩ ∧
      ∀ g ∈ appended, g.GetIndex < GetDimensions fs := by
  have hcs := FeatureSet.sumCompact_le_sumExpanded fs hle
  have hk : kBaseDimensions fs = fs.sumCompact := FeatureSet.kDimensions_eq fs (by omega)
  have hg : GetDimensions fs = fs.sumExpanded := GetDimensions_eq fs (by omega)
  rw [hk] at hi
  refine ⟨hg, ((fs.member (fs.memberOf base_index)).AppendTrainingFeatures
    (fs.localIndex base_index)).map (fs.placed (fs.memberOf base_index) fs.sumCompact), ?_, ?_⟩
  · unfold AppendTrainingFeaturesDefault
    rw [hk]
    exact append_eq fs fs.sumCompact hle hleaf (le_refl _) (by omega) base_index hi
      training_features
  · intro g hgm
    rw [List.mem_map] at hgm
    obtain ⟨f, hf, rfl⟩ := hgm
    have hfd : f.GetIndex < (fs.member (fs.memberOf base_index)).GetDimensions := by
      exact hleaf _ (FeatureSet.member_mem fs _) (fs.localIndex base_index)
        (FeatureSet.localIndex_lt fs base_index hi) f hf
    have hr := FeatureSet.placedIndex_range fs hle (fs.memberOf base_index) fs.sumCompact
      f.GetIndex hfd
    rw [FeatureSet.placed_GetIndex, hg]
    by_cases hc : f.GetIndex < (fs.member (fs.memberOf base_index)).kDimensions
    · have := hr.1 hc; omega
    · have := hr.2 (by omega); omega

/-- An instance: the list `[A, B]`, compact index 3, a sink holding one record. -/
theorem default_index_lt_GetDimensions_witness :
    GetDimensions Sample.setAB = Sample.setAB.sumExpanded ∧
    ∃ appended, AppendTrainingFeaturesDefault Sample.setAB 3 [Sample.record 9]
        = ⟨[Sample.record 9] ++ appended, none⟩ ∧
      ∀ g ∈ appended, g.GetIndex < GetDimensions Sample.setAB :=
  default_index_lt_GetDimensions Sample.setAB Sample.setAB_compactLeExpanded
    Sample.setAB_leavesInRange (by decide) 3 (by decide) [Sample.record 9]

end Factorizer

/-! ## The placed index as a map on (member, leaf index) -/

namespace FeatureSet

theorem placedIndex_succ (first : FeatureType) (remaining : FeatureSet) (k B j : Nat) :
    (cons first remaining).placedIndex (k + 1) B j = remaining.placedIndex k B j := rfl

theorem placedIndex_zero (first : FeatureType) (remaining : FeatureSet) (B j : Nat) :
    (cons first remaining).placedIndex 0 B j
      = if j < first.kDimensions then j + remaining.sumCompact
        else B + (j - first.kDimensions) + (remaining.sumExpanded - remaining.sumCompact) :=
  rfl

theorem placedIndex_inj (fs : FeatureSet) (hle : fs.CompactLeExpanded) (B : Nat)
    (hB : fs.sumCompact ≤ B) (k j k' j' : Nat)
    (hk : k < fs.members.length) (hj : j < (fs.member k).GetDimensions)
    (hk' : k' < fs.members.length) (hj' : j' < (fs.member k').GetDimensions)
    (h : fs.placedIndex k B j = fs.placedIndex k' B j') : k = k' ∧ j = j' := by
  induction fs generalizing k k' with
  | single t =>
    have e1 : k = 0 := by simpa [members] using hk
    have e2 : k' = 0 := by simpa [members] using hk'
    subst e1 e2
    refine ⟨rfl, ?_⟩
    have hB2 : t.kDimensions ≤ B := by simpa [sumCompact, members] using hB
    simp only [placedIndex, member, compactAfter, extraAfter] at h
    split at h <;> split at h <;> omega
  | cons first remaining ih =>
    have h0 : first.kDimensions ≤ first.GetDimensions := hle first (by simp [members])
    have hle2 : remaining.CompactLeExpanded := fun t ht => hle t (by simp [members, ht])
    have hrem := sumCompact_le_sumExpanded remaining hle2
    rw [sumCompact_cons] at hB
    cases k with
    | zero =>
      cases k' with
      | zero =>
        refine ⟨rfl, ?_⟩
        rw [placedIndex_zero, placedIndex_zero] at h
        split at h <;> split at h <;> omega
      | succ k' =>
        exfalso
        have hj2 : j' < (remaining.member k').GetDimensions := hj'
        have hr := placedIndex_range remaining hle2 k' B j' hj2
        rw [placedIndex_zero, placedIndex_succ] at h
        have hj0 : j < first.GetDimensions := hj
        by_cases hc : j' < (remaining.member k').kDimensions
        · have := hr.1 hc
          split at h <;> omega
        · have := hr.2 (by omega)
          split at h <;> omega
    | succ k =>
      cases k' with
      | zero =>
        exfalso
        have hj2 : j < (remaining.member k).GetDimensions := hj
        have hr := placedIndex_range remaining hle2 k B j hj2
        rw [placedIndex_zero, placedIndex_succ] at h
        have hj0 : j' < first.GetDimensions := hj'
        by_cases hc : j < (remaining.member k).kDimensions
        · have := hr.1 hc
          split at h <;> omega
        · have := hr.2 (by omega)
          split at h <;> omega
      | succ k' =>
        have hk2 : k < remaining.members.length := by simpa [members] using hk
        have hk2' : k' < remaining.members.length := by simpa [members] using hk'
        rw [placedIndex_succ, placedIndex_succ] at h
        have := ih hle2 (by omega) k k' hk2 hj hk2' hj' h
        exact ⟨by omega, this.2⟩

theorem placedIndex_surj_pass (fs : FeatureSet) (B x : Nat) (hx : x < fs.sumCompact) :
    ∃ k j, k < fs.members.length ∧ j < (fs.member k).kDimensions ∧
      fs.placedIndex k B j = x := by
  refine ⟨fs.memberOf x, fs.localIndex x, memberOf_lt fs x, localIndex_lt fs x hx, ?_⟩
  unfold placedIndex
  rw [if_pos (localIndex_lt fs x hx)]
  exact localIndex_add_compactAfter fs x hx

theorem placedIndex_surj_factor (fs : FeatureSet) (hle : fs.CompactLeExpanded) (B y : Nat)
    (hy : y + fs.sumCompact < fs.sumExpanded) :
    ∃ k j, k < fs.members.length ∧ (fs.member k).kDimensions ≤ j ∧
      j < (fs.member k).GetDimensions ∧ fs.placedIndex k B j = B + y := by
  induction fs generalizing y with
  | single t =>
    simp only [sumCompact, sumExpanded, members, List.map_cons, List.map_nil, List.sum_cons,
      List.sum_nil, Nat.add_zero] at hy
    refine ⟨0, t.kDimensions + y, by simp [members], ?_, ?_, ?_⟩
    · simp only [member]; omega
    · simp only [member]; omega
    · simp only [placedIndex, member, compactAfter, extraAfter]
      rw [if_neg (by omega)]; omega
  | cons first remaining ih =>
    have h0 : first.kDimensions ≤ first.GetDimensions := hle first (by simp [members])
    have hle2 : remaining.CompactLeExpanded := fun t ht => hle t (by simp [members, ht])
    have hrem := sumCompact_le_sumExpanded remaining hle2
    rw [sumCompact_cons, sumExpanded_cons] at hy
    by_cases hlt : y + remaining.sumCompact < remaining.sumExpanded
    · obtain ⟨k, j, hk, hc, hd, hp⟩ := ih hle2 y hlt
      exact ⟨k + 1, j, by simp [members, hk], hc, hd, hp⟩
    · refine ⟨0, first.kDimensions + (y - (remaining.sumExpanded - remaining.sumCompact)),
        by simp [members], ?_, ?_, ?_⟩
      · simp only [member]; omega
      · simp only [member]; omega
      · rw [placedIndex_zero, if_neg (by omega)]; omega

end FeatureSet

namespace Factorizer

/-- The composite call, record by record: under the hypotheses of `append_eq` the
call completes and the new records pair off, in order, with the records of the
addressed member's leaf; each has the placed index and the leaf's count. -/
theorem append_forall₂ (fs : FeatureSet) (B : Nat) (hle : fs.CompactLeExpanded)
    (hleaf : fs.LeavesInRange) (hB : fs.sumCompact ≤ B)
    (hbound : B + fs.sumExpanded ≤ 2 ^ 24 + fs.sumCompact)
    (i : Nat) (hi : i < fs.sumCompact) (tf : List TrainingFeature) :
    ∃ appended, AppendTrainingFeatures fs i tf B = ⟨tf ++ appended, none⟩ ∧
      List.Forall₂ (fun f g => g.GetIndex = fs.placedIndex (fs.memberOf i) B f.GetIndex ∧
          g.GetCount = f.GetCount)
        ((fs.member (fs.memberOf i)).AppendTrainingFeatures (fs.localIndex i)) appended :=
  ⟨_, append_eq fs B hle hleaf hB hbound i hi tf,
    forall₂_map_right _ _ _ (fun f _ =>
      ⟨FeatureSet.placed_GetIndex fs _ B f, FeatureSet.placed_GetCount fs _ B f⟩)⟩

/-- C2, as stated, fails: in the list `[typeSmall, typeWide]` every member has compact
size at most expanded size and the leaves stay below their `GetDimensions()`, but
`GetDimensions()` is `2 ^ 24 + 2`; the default call with compact index `2 ^ 24`
reaches the factor record with leaf index 1 of the first type and fails in
`ShiftIndex`, so that record has no final index. -/
theorem default_expansion_fails_past_index_budget :
    Sample.setWide.CompactLeExpanded ∧
    GetDimensions Sample.setWide = 2 ^ 24 + 2 ∧
    2 ^ 24 < kBaseDimensions Sample.setWide ∧
    Sample.typeSmall.AppendTrainingFeatures 0 = [Sample.record 0, Sample.record 1] ∧
    (Sample.record 1).GetIndex < Sample.typeSmall.GetDimensions ∧
    (AppendTrainingFeaturesDefault Sample.setWide (2 ^ 24) []).failure
      = some .shiftOverflow := by
  refine ⟨?_, by decide, by decide, rfl, by decide, by decide⟩
  intro t ht
  simp only [Sample.setWide, FeatureSet.members, List.mem_cons, List.mem_singleton,
    List.mem_nil_iff, or_false] at ht
  rcases ht with rfl | rfl <;> decide

/-- C2, amended: for every feature-type list whose members have compact size at most
expanded size and whose expanded sizes sum to at most `2 ^ 24`, with the default
`base_dimensions`: the call completes and gives the leaf record with index `j` of
member `k` the final index `placedIndex k kBaseDimensions j` (and the leaf's count);
this map is injective on the pairs (member `k`, leaf index `j < d_k`), so records of
different members never meet, and its image is exactly `[0, GetDimensions())`. -/
theorem default_expansion_bijective (fs : FeatureSet) (hle : fs.CompactLeExpanded)
    (hdim : fs.sumExpanded ≤ 2 ^ 24) :
    (∀ base_index training_features, fs.LeavesInRange → base_index < kBaseDimensions fs →
      ∃ appended, AppendTrainingFeaturesDefault fs base_index training_features
          = ⟨training_features ++ appended, none⟩ ∧
        List.Forall₂ (fun f g =>
            g.GetIndex = fs.placedIndex (fs.memberOf base_index) (kBaseDimensions fs) f.GetIndex
              ∧ g.GetCount = f.GetCount)
          ((fs.member (fs.memberOf base_index)).AppendTrainingFeatures
            (fs.localIndex base_index)) appended) ∧
    (∀ k j k' j', k < fs.members.length → j < (fs.member k).GetDimensions →
      k' < fs.members.length → j' < (fs.member k').GetDimensions →
      fs.placedIndex k (kBaseDimensions fs) j = fs.placedIndex k' (kBaseDimensions fs) j' →
      k = k' ∧ j = j') ∧
    (∀ x, x < GetDimensions fs ↔
      ∃ k j, k < fs.members.length ∧ j < (fs.member k).GetDimensions ∧
        fs.placedIndex k (kBaseDimensions fs) j = x) := by
  have hcs := FeatureSet.sumCompact_le_sumExpanded fs hle
  have hk : kBaseDimensions fs = fs.sumCompact := FeatureSet.kDimensions_eq fs (by omega)
  have hg : GetDimensions fs = fs.sumExpanded := GetDimensions_eq fs (by omega)
  rw [hk, hg]
  refine ⟨?_, ?_, ?_⟩
  · intro i tf hleaf hi
    unfold AppendTrainingFeaturesDefault
    rw [hk]
    exact append_forall₂ fs fs.sumCompact hle hleaf (le_refl _) (by omega) i hi tf
  · intro k j k' j' hk1 hj hk2 hj' h
    exact FeatureSet.placedIndex_inj fs hle fs.sumCompact (le_refl _) k j k' j' hk1 hj hk2 hj' h
  · intro x
    constructor
    · intro hx
      by_cases hlt : x < fs.sumCompact
      · obtain ⟨k, j, hk1, hj, hp⟩ := FeatureSet.placedIndex_surj_pass fs fs.sumCompact x hlt
        have := hle _ (FeatureSet.member_mem fs k)
        exact ⟨k, j, hk1, by omega, hp⟩
      · obtain ⟨k, j, hk1, _, hj, hp⟩ := FeatureSet.placedIndex_surj_factor fs hle
          fs.sumCompact (x - fs.sumCompact) (by omega)
        exact ⟨k, j, hk1, hj, by omega⟩
    · rintro ⟨k, j, _, hj, rfl⟩
      have hr := FeatureSet.placedIndex_range fs hle k fs.sumCompact j hj
      by_cases hc : j < (fs.member k).kDimensions
      · have := hr.1 hc; omega
      · have := hr.2 (by omega); omega

/-- An instance: the list `[A, B]`, 7 expanded dimensions. -/
theorem default_expansion_bijective_witness :
    Sample.setAB.sumExpanded ≤ 2 ^ 24 ∧
    ((∀ base_index training_features, Sample.setAB.LeavesInRange →
      base_index < kBaseDimensions Sample.setAB →
      ∃ appended, AppendTrainingFeaturesDefault Sample.setAB base_index training_features
          = ⟨training_features ++ appended, none⟩ ∧
        List.Forall₂ (fun f g =>
            g.GetIndex = Sample.setAB.placedIndex (Sample.setAB.memberOf base_index)
              (kBaseDimensions Sample.setAB) f.GetIndex ∧ g.GetCount = f.GetCount)
          ((Sample.setAB.member (Sample.setAB.memberOf base_index)).AppendTrainingFeatures
            (Sample.setAB.localIndex base_index)) appended) ∧
    (∀ k j k' j', k < Sample.setAB.members.length → j < (Sample.setAB.member k).GetDimensions →
      k' < Sample.setAB.members.length → j' < (Sample.setAB.member k').GetDimensions →
      Sample.setAB.placedIndex k (kBaseDimensions Sample.setAB) j
        = Sample.setAB.placedIndex k' (kBaseDimensions Sample.setAB) j' →
      k = k' ∧ j = j') ∧
    (∀ x, x < GetDimensions Sample.setAB ↔
      ∃ k j, k < Sample.setAB.members.length ∧ j < (Sample.setAB.member k).GetDimensions ∧
        Sample.setAB.placedIndex k (kBaseDimensions Sample.setAB) j = x)) :=
  ⟨by decide, default_expansion_bijective Sample.setAB Sample.setAB_compactLeExpanded
    (by decide)⟩

/-- C3, as stated, fails: the list `[typeUnit, typeWide]` has `2 ^ 24 + 1` compact
dimensions; with `base_dimensions` equal to that number and compact index `2 ^ 24`,
the first type's leaf appends its pass-through record with index 0, and the head
branch fails in `ShiftIndex` when it moves that record up by `2 ^ 24`: the record
reaches no final index, so the pass-through indices do not fill
`[0, kBaseDimensions)`. -/
theorem passthrough_rebase_fails_past_index_budget :
    kBaseDimensions Sample.setUnitWide = 2 ^ 24 + 1 ∧
    Sample.typeUnit.AppendTrainingFeatures 0 = [Sample.record 0] ∧
    (Sample.record 0).GetIndex < Sample.typeUnit.kDimensions ∧
    AppendTrainingFeatures Sample.setUnitWide (2 ^ 24) [] (2 ^ 24 + 1)
      = ⟨[Sample.record 0], some .shiftOverflow⟩ := by
  refine ⟨by decide, rfl, by decide, by decide⟩

/-- C3, amended: for every feature-type list whose members have compact size at most
expanded size and whose leaves stay below their `GetDimensions()`, and every
`base_dimensions` `B` at least the compact total with
`B + (expanded total - compact total) ≤ 2 ^ 24`: the call completes, and a leaf
record with pass-through index `j < c_k` of the addressed member `k` ends at an index
below `kBaseDimensions` which, routed as a compact index, addresses member `k` with
local index `j`; if `j` is the local index the leaf was called with, the final index
is the compact index of the call.  The map `(k, j) ↦` final index is a bijection
from the pairs with `j < c_k` onto `[0, kBaseDimensions)`. -/
theorem passthrough_rebase_lossless (fs : FeatureSet) (hle : fs.CompactLeExpanded)
    (hleaf : fs.LeavesInRange) (B : Nat) (hB : fs.sumCompact ≤ B)
    (hbound : B + fs.sumExpanded ≤ 2 ^ 24 + fs.sumCompact) :
    (∀ base_index training_features, base_index < kBaseDimensions fs →
      ∃ appended, AppendTrainingFeatures fs base_index training_features B
          = ⟨training_features ++ appended, none⟩ ∧
        List.Forall₂ (fun f g =>
            f.GetIndex < (fs.member (fs.memberOf base_index)).kDimensions →
              g.GetIndex = fs.placedIndex (fs.memberOf base_index) B f.GetIndex ∧
              g.GetIndex < kBaseDimensions fs ∧
              fs.memberOf g.GetIndex = fs.memberOf base_index ∧
              fs.localIndex g.GetIndex = f.GetIndex ∧
              (f.GetIndex = fs.localIndex base_index → g.GetIndex = base_index))
          ((fs.member (fs.memberOf base_index)).AppendTrainingFeatures
            (fs.localIndex base_index)) appended) ∧
    (∀ k j, k < fs.members.length → j < (fs.member k).kDimensions →
      fs.placedIndex k B j < kBaseDimensions fs ∧
      fs.memberOf (fs.placedIndex k B j) = k ∧ fs.localIndex (fs.placedIndex k B j) = j) ∧
    (∀ x, x < kBaseDimensions fs →
      ∃ k j, k < fs.members.length ∧ j < (fs.member k).kDimensions ∧
        fs.placedIndex k B j = x) := by
  have hcs := FeatureSet.sumCompact_le_sumExpanded fs hle
  have hk : kBaseDimensions fs = fs.sumCompact := FeatureSet.kDimensions_eq fs (by omega)
  have hpass : ∀ k j, j < (fs.member k).kDimensions →
      fs.placedIndex k B j = j + fs.compactAfter k := by
    intro k j hj
    unfold FeatureSet.placedIndex
    rw [if_pos hj]
  rw [hk]
  refine ⟨?_, ?_, ?_⟩
  · intro i tf hi
    refine ⟨_, append_eq fs B hle hleaf hB hbound i hi tf, ?_⟩
    apply forall₂_map_right
    intro f _ hf
    have hc := FeatureSet.compactAfter_add_le fs (fs.memberOf i)
    have hr := FeatureSet.memberOf_localIndex_of_add fs (fs.memberOf i) f.GetIndex
      (FeatureSet.memberOf_lt fs i) hf
    have hl := FeatureSet.localIndex_add_compactAfter fs i hi
    rw [FeatureSet.placed_GetIndex, hpass _ _ hf]
    exact ⟨rfl, by omega, hr.1, hr.2, fun h => by omega⟩
  · intro k j hk1 hj
    have hc := FeatureSet.compactAfter_add_le fs k
    have hr := FeatureSet.memberOf_localIndex_of_add fs k j hk1 hj
    rw [hpass _ _ hj]
    exact ⟨by omega, hr.1, hr.2⟩
  · intro x hx
    exact FeatureSet.placedIndex_surj_pass fs B x hx

/-- An instance: the list `[A, B]` with `base_dimensions = 7`. -/
theorem passthrough_rebase_lossless_witness :
    (Sample.setAB.sumCompact ≤ 7 ∧ 7 + Sample.setAB.sumExpanded
      ≤ 2 ^ 24 + Sample.setAB.sumCompact) ∧
    ((∀ base_index training_features, base_index < kBaseDimensions Sample.setAB →
      ∃ appended, AppendTrainingFeatures Sample.setAB base_index training_features 7
          = ⟨training_features ++ appended, none⟩ ∧
        List.Forall₂ (fun f g =>
            f.GetIndex < (Sample.setAB.member (Sample.setAB.memberOf base_index)).kDimensions →
              g.GetIndex = Sample.setAB.placedIndex (Sample.setAB.memberOf base_index) 7
                f.GetIndex ∧
              g.GetIndex < kBaseDimensions Sample.setAB ∧
              Sample.setAB.memberOf g.GetIndex = Sample.setAB.memberOf base_index ∧
              Sample.setAB.localIndex g.GetIndex = f.GetIndex ∧
              (f.GetIndex = Sample.setAB.localIndex base_index → g.GetIndex = base_index))
          ((Sample.setAB.member (Sample.setAB.memberOf base_index)).AppendTrainingFeatures
            (Sample.setAB.localIndex base_index)) appended) ∧
    (∀ k j, k < Sample.setAB.members.length → j < (Sample.setAB.member k).kDimensions →
      Sample.setAB.placedIndex k 7 j < kBaseDimensions Sample.setAB ∧
      Sample.setAB.memberOf (Sample.setAB.placedIndex k 7 j) = k ∧
      Sample.setAB.localIndex (Sample.setAB.placedIndex k 7 j) = j) ∧
    (∀ x, x < kBaseDimensions Sample.setAB →
      ∃ k j, k < Sample.setAB.members.length ∧ j < (Sample.setAB.member k).kDimensions ∧
        Sample.setAB.placedIndex k 7 j = x)) :=
  ⟨by decide, passthrough_rebase_lossless Sample.setAB Sample.setAB_compactLeExpanded
    Sample.setAB_leavesInRange 7 (by decide) (by decide)⟩

end Factorizer

/-! ## The head branch, record by record -/

theorem forall₂_map_map (R : TrainingFeature → TrainingFeature → Prop)
    (p q : TrainingFeature → TrainingFeature) (l : List TrainingFeature)
    (h : ∀ f ∈ l, R (p f) (q f)) : List.Forall₂ R (l.map p) (l.map q) := by
  induction l with
  | nil => exact List.Forall₂.nil
  | cons a rest ih =>
    exact List.Forall₂.cons (h a (List.mem_cons_self a rest))
      (ih (fun f hf => h f (List.mem_cons_of_mem a hf)))

namespace Single

theorem placed_GetIndex_factor (t : FeatureType) (B : Nat) (f : TrainingFeature)
    (h : t.kDimensions ≤ f.GetIndex) :
    (placed t B f).GetIndex = f.GetIndex + B - t.kDimensions := by
  unfold placed
  rw [if_pos h]
  rw [TrainingFeature.GetIndex_eq] at h
  rw [TrainingFeature.GetIndex_eq, TrainingFeature.GetIndex_eq]
  simp only
  omega

theorem base_placed_GetCount (t : FeatureType) (B : Nat) (f : TrainingFeature) :
    (placed t B f).GetCount = f.GetCount := by
  unfold placed
  by_cases h : t.kDimensions ≤ f.GetIndex
  · rw [if_pos h]
    rw [TrainingFeature.GetIndex_eq] at h
    rw [TrainingFeature.GetCount_eq, TrainingFeature.GetCount_eq]
    simp only
    omega
  · rw [if_neg h]

theorem placed_passthrough (t : FeatureType) (B : Nat) (f : TrainingFeature)
    (h : f.GetIndex < t.kDimensions) : placed t B f = f := by
  unfold placed
  rw [if_neg (by omega)]

end Single

namespace Factorizer

/-- A call routed to the first type: what `Head` returns and what the composite
call leaves, both as images of the records of the first type's leaf. -/
theorem head_call_eq (first : FeatureType) (remaining : FeatureSet) (B i : Nat)
    (tf : List TrainingFeature) (hle : (FeatureSet.cons first remaining).CompactLeExpanded)
    (hleaf : (FeatureSet.cons first remaining).LeavesInRange)
    (hB : (FeatureSet.cons first remaining).sumCompact ≤ B)
    (hbound : B + (FeatureSet.cons first remaining).sumExpanded
      ≤ 2 ^ 24 + (FeatureSet.cons first remaining).sumCompact)
    (h1 : kBaseDimensions remaining ≤ i)
    (h2 : i < kBaseDimensions (.cons first remaining)) :
    kBaseDimensions remaining = remaining.sumCompact ∧
    GetDimensions remaining = remaining.sumExpanded ∧
    remaining.sumCompact ≤ remaining.sumExpanded ∧
    first.kDimensions + remaining.sumCompact ≤ B ∧
    B + (first.GetDimensions + remaining.sumExpanded)
      ≤ 2 ^ 24 + (first.kDimensions + remaining.sumCompact) ∧
    first.kDimensions ≤ first.GetDimensions ∧
    (∀ f ∈ first.AppendTrainingFeatures (i - kBaseDimensions remaining),
      f.GetIndex < first.GetDimensions) ∧
    Single.AppendTrainingFeatures first (i - kBaseDimensions remaining) tf B
      = ⟨tf ++ (first.AppendTrainingFeatures (i - kBaseDimensions remaining)).map
          (Single.placed first B), none⟩ ∧
    AppendTrainingFeatures (.cons first remaining) i tf B
      = ⟨tf ++ (first.AppendTrainingFeatures (i - kBaseDimensions remaining)).map
          ((FeatureSet.cons first remaining).placed 0 B), none⟩ := by
  have hcd : first.kDimensions ≤ first.GetDimensions :=
    hle first (by simp [FeatureSet.members])
  have hle2 : remaining.CompactLeExpanded :=
    fun t ht => hle t (by simp [FeatureSet.members, ht])
  have hrem := FeatureSet.sumCompact_le_sumExpanded remaining hle2
  have hB0 := hB
  have hbound0 := hbound
  rw [FeatureSet.sumCompact_cons] at hB hbound
  rw [FeatureSet.sumExpanded_cons] at hbound
  have hk : kBaseDimensions remaining = remaining.sumCompact :=
    FeatureSet.kDimensions_eq remaining (by omega)
  have hg : GetDimensions remaining = remaining.sumExpanded :=
    GetDimensions_eq remaining (by omega)
  have hk2 : kBaseDimensions (.cons first remaining)
      = first.kDimensions + remaining.sumCompact := by
    rw [kBaseDimensions, FeatureSet.kDimensions_eq _ (by rw [FeatureSet.sumCompact_cons]; omega),
      FeatureSet.sumCompact_cons]
  rw [hk] at h1
  rw [hk2] at h2
  have hj : i - remaining.sumCompact < first.kDimensions := by omega
  have hl := hleaf first (by simp [FeatureSet.members]) _ hj
  have hi : i < (FeatureSet.cons first remaining).sumCompact := by
    rw [FeatureSet.sumCompact_cons]; exact h2
  have hnot : ¬ i < remaining.sumCompact := by omega
  have ha := append_eq (.cons first remaining) B hle hleaf hB0 hbound0 i hi tf
  simp only [FeatureSet.memberOf, FeatureSet.localIndex, if_neg hnot, FeatureSet.member] at ha
  rw [hk]
  exact ⟨rfl, hg, hrem, hB, hbound, hcd, hl,
    Single.base_append_eq first _ B tf hj (by omega) hl
      (fun f hf _ => by have := hl f hf; omega), ha⟩

/-- C4, as stated, fails: in the list `[A, C]` (the tail `C` has 2 compact and 4
expanded dimensions) compact index 2 is routed to `A` with local index 0; `Head`
returns the pass-through record with index 0, and the composite call leaves it
at index 2, moved by the tail's compact size 2, not by the tail's
`GetDimensions() = 4`. -/
theorem head_passthrough_not_shifted_by_tail_dimensions :
    kBaseDimensions (.single Sample.typeC) ≤ 2 ∧
    Single.AppendTrainingFeatures Sample.typeA (2 - kBaseDimensions (.single Sample.typeC)) []
        (kBaseDimensions Sample.setAC)
      = ⟨[Sample.record 0, Sample.record 5, Sample.record 6], none⟩ ∧
    (Sample.record 0).GetIndex < Single.kBaseDimensions Sample.typeA ∧
    AppendTrainingFeaturesDefault Sample.setAC 2 []
      = ⟨[Sample.record 2, Sample.record 7, Sample.record 8], none⟩ ∧
    (Sample.record 2).GetIndex
      ≠ (Sample.record 0).GetIndex + GetDimensions (.single Sample.typeC) := by
  decide

/-- C4, amended: in the head branch of the composite call (compact index at least
the tail's compact dimensionality), for a list inside the index budget, every
record whose index as returned by `Head` is below `Head::kBaseDimensions` is
shifted by exactly `Tail::kBaseDimensions`, the tail's compact size, and keeps its
count: the pass-through records of the first type land past the tail's compact
range `[0, Tail::kBaseDimensions)` and below the list's `kBaseDimensions`. -/
theorem head_passthrough_shifted_by_tail_compact (first : FeatureType)
    (remaining : FeatureSet) (base_dimensions base_index : Nat)
    (training_features : List TrainingFeature)
    (hle : (FeatureSet.cons first remaining).CompactLeExpanded)
    (hleaf : (FeatureSet.cons first remaining).LeavesInRange)
    (hB : (FeatureSet.cons first remaining).sumCompact ≤ base_dimensions)
    (hbound : base_dimensions + (FeatureSet.cons first remaining).sumExpanded
      ≤ 2 ^ 24 + (FeatureSet.cons first remaining).sumCompact)
    (h1 : kBaseDimensions remaining ≤ base_index)
    (h2 : base_index < kBaseDimensions (.cons first remaining)) :
    ∃ returned appended,
      Single.AppendTrainingFeatures first (base_index - kBaseDimensions remaining)
          training_features base_dimensions = ⟨training_features ++ returned, none⟩ ∧
      AppendTrainingFeatures (.cons first remaining) base_index training_features
          base_dimensions = ⟨training_features ++ appended, none⟩ ∧
      List.Forall₂ (fun h g => h.GetIndex < Single.kBaseDimensions first →
          g.GetIndex = h.GetIndex + kBaseDimensions remaining ∧
          g.GetCount = h.GetCount ∧
          kBaseDimensions remaining ≤ g.GetIndex ∧
          g.GetIndex < kBaseDimensions (.cons first remaining))
        returned appended := by
  obtain ⟨hk, _, _, hB2, _, _, hl, hs, ha⟩ := head_call_eq first remaining base_dimensions
    base_index training_features hle hleaf hB hbound h1 h2
  have hk2 : kBaseDimensions (.cons first remaining)
      = first.kDimensions + remaining.sumCompact := by
    rw [kBaseDimensions, FeatureSet.kDimensions_eq _ (by rw [FeatureSet.sumCompact_cons]; omega),
      FeatureSet.sumCompact_cons]
  refine ⟨_, _, hs, ha, ?_⟩
  apply forall₂_map_map
  intro f _ hlt
  by_cases hc : first.kDimensions ≤ f.GetIndex
  · exfalso
    rw [Single.placed_GetIndex_factor first base_dimensions f hc] at hlt
    simp only [Single.kBaseDimensions] at hlt
    omega
  · have hp : f.GetIndex < first.kDimensions := by omega
    rw [Single.placed_passthrough first base_dimensions f hp, FeatureSet.placed_GetIndex,
      FeatureSet.placed_GetCount, FeatureSet.placedIndex_zero, if_pos hp, hk, hk2]
    exact ⟨rfl, rfl, by omega, by omega⟩

/-- An instance: the list `[A, B]`, compact index 3, `base_dimensions = 5`. -/
theorem head_passthrough_shifted_by_tail_compact_witness :
    ∃ returned appended,
      Single.AppendTrainingFeatures Sample.typeA (3 - kBaseDimensions (.single Sample.typeB))
          [] 5 = ⟨[] ++ returned, none⟩ ∧
      AppendTrainingFeatures (.cons Sample.typeA (.single Sample.typeB)) 3 [] 5
        = ⟨[] ++ appended, none⟩ ∧
      List.Forall₂ (fun h g => h.GetIndex < Single.kBaseDimensions Sample.typeA →
          g.GetIndex = h.GetIndex + kBaseDimensions (.single Sample.typeB) ∧
          g.GetCount = h.GetCount ∧
          kBaseDimensions (.single Sample.typeB) ≤ g.GetIndex ∧
          g.GetIndex < kBaseDimensions (.cons Sample.typeA (.single Sample.typeB)))
        returned appended :=
  head_passthrough_shifted_by_tail_compact Sample.typeA (.single Sample.typeB) 5 3 []
    Sample.setAB_compactLeExpanded Sample.setAB_leavesInRange (by decide) (by decide)
    (by decide) (by decide)

/-- C5, as stated, fails: in the list `[A, B]` with the default `base_dimensions = 5`,
compact index 3 is routed to `A` (the tail has 2 compact dimensions); the call leaves
the pass-through record at final index 3, which is neither below
`Head::kBaseDimensions = 3` nor in `[5, 5 + 5 - 3)`. -/
theorem head_final_index_outside_asserted_ranges :
    kBaseDimensions (.single Sample.typeB) ≤ 3 ∧ 3 < kBaseDimensions Sample.setAB ∧
    AppendTrainingFeatures Sample.setAB 3 [] 5
      = ⟨[Sample.record 3, Sample.record 5, Sample.record 6], none⟩ ∧
    ¬ ((Sample.record 3).GetIndex < Single.kBaseDimensions Sample.typeA ∨
      (5 ≤ (Sample.record 3).GetIndex ∧ (Sample.record 3).GetIndex
        < 5 + Single.GetDimensions Sample.typeA - Single.kBaseDimensions Sample.typeA)) := by
  decide

/-- C5, amended: in the head branch of the composite call, for a list with at least
two members inside the index budget, the index of every record as `Head` returns it
(the value the assertion of line 58 inspects, before this level's shift) is below
`Head::kBaseDimensions` or in `[base_dimensions, base_dimensions + Head::GetDimensions()
- Head::kBaseDimensions)`; this level then moves the first kind by the tail's compact
size and the second kind by the tail's number of extra factors. -/
theorem head_returned_index_in_asserted_ranges (first : FeatureType)
    (remaining : FeatureSet) (base_dimensions base_index : Nat)
    (training_features : List TrainingFeature)
    (hle : (FeatureSet.cons first remaining).CompactLeExpanded)
    (hleaf : (FeatureSet.cons first remaining).LeavesInRange)
    (hB : (FeatureSet.cons first remaining).sumCompact ≤ base_dimensions)
    (hbound : base_dimensions + (FeatureSet.cons first remaining).sumExpanded
      ≤ 2 ^ 24 + (FeatureSet.cons first remaining).sumCompact)
    (h1 : kBaseDimensions remaining ≤ base_index)
    (h2 : base_index < kBaseDimensions (.cons first remaining)) :
    ∃ returned appended,
      Single.AppendTrainingFeatures first (base_index - kBaseDimensions remaining)
          training_features base_dimensions = ⟨training_features ++ returned, none⟩ ∧
      AppendTrainingFeatures (.cons first remaining) base_index training_features
          base_dimensions = ⟨training_features ++ appended, none⟩ ∧
      List.Forall₂ (fun h g =>
          (h.GetIndex < Single.kBaseDimensions first ∧
            g.GetIndex = h.GetIndex + kBaseDimensions remaining) ∨
          (base_dimensions ≤ h.GetIndex ∧
            h.GetIndex < base_dimensions + Single.GetDimensions first
              - Single.kBaseDimensions first ∧
            g.GetIndex = h.GetIndex + (GetDimensions remaining - kBaseDimensions remaining)))
        returned appended := by
  obtain ⟨hk, hg, hrem, hB2, hb2, hcd, hl, hs, ha⟩ := head_call_eq first remaining
    base_dimensions base_index training_features hle hleaf hB hbound h1 h2
  refine ⟨_, _, hs, ha, ?_⟩
  apply forall₂_map_map
  intro f hf
  have hfd := hl f hf
  simp only [Single.kBaseDimensions, Single.GetDimensions]
  rw [FeatureSet.placed_GetIndex, FeatureSet.placedIndex_zero, hk, hg]
  by_cases hc : first.kDimensions ≤ f.GetIndex
  · right
    rw [Single.placed_GetIndex_factor first base_dimensions f hc, if_neg (by omega)]
    exact ⟨by omega, by omega, by omega⟩
  · left
    have hp : f.GetIndex < first.kDimensions := by omega
    rw [Single.placed_passthrough first base_dimensions f hp, if_pos hp]
    exact ⟨hp, rfl⟩

/-- An instance: the list `[A, B]`, compact index 3, `base_dimensions = 5`. -/
theorem head_returned_index_in_asserted_ranges_witness :
    ∃ returned appended,
      Single.AppendTrainingFeatures Sample.typeA (3 - kBaseDimensions (.single Sample.typeB))
          [] 5 = ⟨[] ++ returned, none⟩ ∧
      AppendTrainingFeatures (.cons Sample.typeA (.single Sample.typeB)) 3 [] 5
        = ⟨[] ++ appended, none⟩ ∧
      List.Forall₂ (fun h g =>
          (h.GetIndex < Single.kBaseDimensions Sample.typeA ∧
            g.GetIndex = h.GetIndex + kBaseDimensions (.single Sample.typeB)) ∨
          (5 ≤ h.GetIndex ∧
            h.GetIndex < 5 + Single.GetDimensions Sample.typeA
              - Single.kBaseDimensions Sample.typeA ∧
            g.GetIndex = h.GetIndex + (GetDimensions (.single Sample.typeB)
              - kBaseDimensions (.single Sample.typeB))))
        returned appended :=
  head_returned_index_in_asserted_ranges Sample.typeA (.single Sample.typeB) 5 3 []
    Sample.setAB_compactLeExpanded Sample.setAB_leavesInRange (by decide) (by decide)
    (by decide) (by decide)

/-- C6, as stated, fails: in the list `[A, B]` the first type `A` has 3 compact
dimensions, yet compact index 0 is handed to the tail (the call equals the tail's call
with the same index), not to `Head` with local index 0; and compact index 3, which
the claim gives to the tail with local index 0, is handed to `Head` with local
index 1. -/
theorem compact_space_not_head_first :
    0 < Single.kBaseDimensions Sample.typeA ∧
    AppendTrainingFeatures Sample.setAB 0 [] 5
      = AppendTrainingFeatures (.single Sample.typeB) 0 [] 5 ∧
    AppendTrainingFeatures Sample.setAB 0 [] 5
      ≠ headBranch Sample.typeA (.single Sample.typeB) 0 [] 5 ∧
    Single.kBaseDimensions Sample.typeA ≤ 3 ∧
    3 < Single.kBaseDimensions Sample.typeA + kBaseDimensions (.single Sample.typeB) ∧
    AppendTrainingFeatures Sample.setAB 3 [] 5
      = headBranch Sample.typeA (.single Sample.typeB) 1 [] 5 ∧
    AppendTrainingFeatures Sample.setAB 3 [] 5
      ≠ AppendTrainingFeatures (.single Sample.typeB)
          (3 - Single.kBaseDimensions Sample.typeA) [] 5 := by
  decide

/-- C6, amended: the compact index space of a composite list is partitioned
tail-first: for every list with at least two members (whose compact sizes sum below
`2 ^ 32`), the composite call hands a compact index in `[0, TailCompact)` to the tail
factorizer with that same index, and a compact index in
`[TailCompact, TailCompact + HeadCompact)` to the head branch, which calls `Head` with
local index `base_index - TailCompact`. -/
theorem compact_space_tail_first (first : FeatureType) (remaining : FeatureSet)
    (base_index base_dimensions : Nat) (training_features : List TrainingFeature)
    (h32 : Single.kBaseDimensions first + kBaseDimensions remaining < 2 ^ 32) :
    (base_index < kBaseDimensions remaining →
      AppendTrainingFeatures (.cons first remaining) base_index training_features
          base_dimensions
        = AppendTrainingFeatures remaining base_index training_features base_dimensions) ∧
    (kBaseDimensions remaining ≤ base_index →
      base_index < kBaseDimensions remaining + Single.kBaseDimensions first →
      AppendTrainingFeatures (.cons first remaining) base_index training_features
          base_dimensions
        = headBranch first remaining (base_index - kBaseDimensions remaining)
            training_features base_dimensions ∧
      base_index - kBaseDimensions remaining < Single.kBaseDimensions first) := by
  simp only [Single.kBaseDimensions, kBaseDimensions] at h32 ⊢
  have hk : (FeatureSet.cons first remaining).kDimensions
      = first.kDimensions + remaining.kDimensions := by
    rw [FeatureSet.kDimensions, u32]; omega
  constructor
  · intro h
    rw [AppendTrainingFeatures, kBaseDimensions, hk, if_pos (by omega)]
    simp only [if_pos h]
  · intro h1 h2
    have hs : sub32 base_index remaining.kDimensions = base_index - remaining.kDimensions := by
      unfold sub32; omega
    constructor
    · rw [AppendTrainingFeatures, kBaseDimensions, hk, if_pos (by omega)]
      simp only [if_neg (by omega : ¬ base_index < remaining.kDimensions), hs]
    · omega

/-- An instance: in the list `[A, B]` compact index 1 goes to the tail, compact index 3 to `Head` with local index 1. -/
theorem compact_space_tail_first_witness :
    AppendTrainingFeatures (.cons Sample.typeA (.single Sample.typeB)) 1 [] 5
      = AppendTrainingFeatures (.single Sample.typeB) 1 [] 5 ∧
    AppendTrainingFeatures (.cons Sample.typeA (.single Sample.typeB)) 3 [] 5
      = headBranch Sample.typeA (.single Sample.typeB)
          (3 - kBaseDimensions (.single Sample.typeB)) [] 5 ∧
    3 - kBaseDimensions (.single Sample.typeB) < Single.kBaseDimensions Sample.typeA :=
  ⟨(compact_space_tail_first Sample.typeA (.single Sample.typeB) 1 5 [] (by decide)).1
      (by decide),
    (compact_space_tail_first Sample.typeA (.single Sample.typeB) 3 5 [] (by decide)).2
      (by decide) (by decide)⟩

/-- C7, as stated, fails: for the single type `A` (3 compact, 5 expanded dimensions)
the call without `base_dimensions` leaves the factor records at indices 3 and 4,
the call with `base_dimensions = GetDimensions() = 5` leaves them at 5 and 6. -/
theorem default_base_dimensions_is_not_GetDimensions :
    GetDimensions (.single Sample.typeA) = 5 ∧
    AppendTrainingFeaturesDefault (.single Sample.typeA) 0 []
      = ⟨[Sample.record 0, Sample.record 3, Sample.record 4], none⟩ ∧
    AppendTrainingFeatures (.single Sample.typeA) 0 [] (GetDimensions (.single Sample.typeA))
      = ⟨[Sample.record 0, Sample.record 5, Sample.record 6], none⟩ ∧
    AppendTrainingFeaturesDefault (.single Sample.typeA) 0 []
      ≠ AppendTrainingFeatures (.single Sample.typeA) 0 []
          (GetDimensions (.single Sample.typeA)) := by
  decide

/-- C7, amended: the default value of `base_dimensions` is `kBaseDimensions`, the
compact dimensionality of the list: for every feature-type list whose compact sizes
sum below `2 ^ 32`, every compact index and every sink, the call without a
`base_dimensions` argument ends in the same state as the call with `base_dimensions`
equal to the sum of the members' compact sizes. -/
theorem default_base_dimensions_is_compact (fs : FeatureSet) (base_index : Nat)
    (training_features : List TrainingFeature)
    (h32 : (fs.members.map FeatureType.kDimensions).sum < 2 ^ 32) :
    AppendTrainingFeaturesDefault fs base_index training_features
      = AppendTrainingFeatures fs base_index training_features
          (fs.members.map FeatureType.kDimensions).sum := by
  unfold AppendTrainingFeaturesDefault
  rw [kBaseDimensions, FeatureSet.kDimensions_eq fs h32]
  rfl

/-- An instance: the list `[A, B]`, compact index 3. -/
theorem default_base_dimensions_is_compact_witness :
    AppendTrainingFeaturesDefault Sample.setAB 3 []
      = AppendTrainingFeatures Sample.setAB 3 []
          (Sample.setAB.members.map FeatureType.kDimensions).sum :=
  default_base_dimensions_is_compact Sample.setAB 3 [] (by decide)

/-- C8: for every feature-type list, single or composite, every sink and every
`base_dimensions` (given or defaulted), a call with compact index equal to
`kBaseDimensions` or larger ends at once with the range assertion on `base_index`,
and the sink is exactly as it was: nothing is appended and no index wraps into the
valid range. -/
theorem append_out_of_range (fs : FeatureSet) (base_index base_dimensions : Nat)
    (training_features : List TrainingFeature) (h : kBaseDimensions fs ≤ base_index) :
    AppendTrainingFeatures fs base_index training_features base_dimensions
      = ⟨training_features, some .baseIndexRange⟩ ∧
    AppendTrainingFeaturesDefault fs base_index training_features
      = ⟨training_features, some .baseIndexRange⟩ := by
  have key : ∀ B, AppendTrainingFeatures fs base_index training_features B
      = ⟨training_features, some .baseIndexRange⟩ := by
    intro B
    cases fs with
    | single t =>
      have h2 : ¬ base_index < Single.kBaseDimensions t := by
        simp only [kBaseDimensions, FeatureSet.kDimensions] at h
        simp only [Single.kBaseDimensions]; omega
      rw [AppendTrainingFeatures, Single.AppendTrainingFeatures, if_neg h2]
    | cons first remaining =>
      rw [AppendTrainingFeatures, if_neg (by omega)]
  exact ⟨key _, key _⟩

/-- An instance: the list `[A, B]` has 5 compact dimensions; compact index 5 is refused. -/
theorem append_out_of_range_witness :
    AppendTrainingFeatures Sample.setAB 5 [Sample.record 9] 5
      = ⟨[Sample.record 9], some .baseIndexRange⟩ ∧
    AppendTrainingFeaturesDefault Sample.setAB 5 [Sample.record 9]
      = ⟨[Sample.record 9], some .baseIndexRange⟩ :=
  append_out_of_range Sample.setAB 5 5 [Sample.record 9] (by decide)

/-- C9, as stated, fails: for the single type `A` (compact size 3) and
`base_dimensions = 2 ^ 24`, the leaf's record with index 3 is to move up by
`2 ^ 24 - 3`; `ShiftIndex` fails its assertion and the call ends there, the records
not re-based. -/
theorem base_case_shift_fails_past_index_budget :
    0 < kBaseDimensions (.single Sample.typeA) ∧
    Sample.typeA.AppendTrainingFeatures 0
      = [Sample.record 0, Sample.record 3, Sample.record 4] ∧
    AppendTrainingFeatures (.single Sample.typeA) 0 [] (2 ^ 24)
      = ⟨[Sample.record 0, Sample.record 3, Sample.record 4], some .shiftOverflow⟩ := by
  decide

/-- C9, amended: base case, a list of exactly one feature type with compact size `c`:
for every valid compact index and every `base_dimensions` (an `IndexType` value) such
that the leaf's records have index below `GetDimensions()` and every record with
index `j ≥ c` has `j + (base_dimensions - c) < 2 ^ 24`, the call completes and the
records appended are exactly the leaf's records for that index, in the same order,
where each record with leaf index `≥ c` has its index increased by
`base_dimensions - c` (count unchanged) and each record with leaf index `< c` is
unchanged. -/
theorem base_case_shift (t : FeatureType) (base_index base_dimensions : Nat)
    (training_features : List TrainingFeature)
    (hi : base_index < kBaseDimensions (.single t)) (hB : base_dimensions < 2 ^ 32)
    (hd : ∀ f ∈ t.AppendTrainingFeatures base_index, f.GetIndex < GetDimensions (.single t))
    (hs : ∀ f ∈ t.AppendTrainingFeatures base_index, t.kDimensions ≤ f.GetIndex →
      f.GetIndex + base_dimensions < 2 ^ 24 + t.kDimensions) :
    ∃ appended, AppendTrainingFeatures (.single t) base_index training_features
        base_dimensions = ⟨training_features ++ appended, none⟩ ∧
      List.Forall₂ (fun f g =>
          (t.kDimensions ≤ f.GetIndex →
            g.GetIndex + t.kDimensions = f.GetIndex + base_dimensions ∧
            g.GetCount = f.GetCount) ∧
          (f.GetIndex < t.kDimensions → g = f))
        (t.AppendTrainingFeatures base_index) appended := by
  refine ⟨_, Single.base_append_eq t base_index base_dimensions training_features hi hB hd hs,
    ?_⟩
  apply forall₂_map_right
  intro f hf
  constructor
  · intro hc
    have := hs f hf hc
    rw [Single.placed_GetIndex_factor t base_dimensions f hc, Single.base_placed_GetCount]
    exact ⟨by omega, rfl⟩
  · intro hc
    exact Single.placed_passthrough t base_dimensions f hc

/-- An instance: the single type `A` with `base_dimensions = 2`, below its compact size. -/
theorem base_case_shift_witness :
    ∃ appended, AppendTrainingFeatures (.single Sample.typeA) 1 [Sample.record 9] 2
        = ⟨[Sample.record 9] ++ appended, none⟩ ∧
      List.Forall₂ (fun f g =>
          (Sample.typeA.kDimensions ≤ f.GetIndex →
            g.GetIndex + Sample.typeA.kDimensions = f.GetIndex + 2 ∧
            g.GetCount = f.GetCount) ∧
          (f.GetIndex < Sample.typeA.kDimensions → g = f))
        (Sample.typeA.AppendTrainingFeatures 1) appended :=
  base_case_shift Sample.typeA 1 2 [Sample.record 9] (by decide) (by decide)
    (by decide) (by decide)

/-- C10, as stated, fails: for the list of two feature types whose `GetDimensions()`
is `2 ^ 31` each, `GetDimensions()` of the list is 0, the `IndexType` sum having
wrapped, while the members' `GetDimensions()` sum to `2 ^ 32`. -/
theorem GetDimensions_wraps :
    GetDimensions Sample.setHuge = 0 ∧
    (Sample.setHuge.members.map FeatureType.GetDimensions).sum = 2 ^ 32 := by
  decide

/-- C10, amended: for every non-empty feature-type list (each member's
`GetDimensions()` an `IndexType` value), `GetDimensions()` of the composite
factorizer equals the sum of the leaf factorizers' `GetDimensions()` over all members
reduced modulo `2 ^ 32`, hence the sum itself whenever that is below `2 ^ 32`; it is
the same for every list with the same members in another order. -/
theorem GetDimensions_eq_sum (fs : FeatureSet)
    (h : ∀ t ∈ fs.members, t.GetDimensions < 2 ^ 32) :
    GetDimensions fs = (fs.members.map FeatureType.GetDimensions).sum % 2 ^ 32 ∧
    ((fs.members.map FeatureType.GetDimensions).sum < 2 ^ 32 →
      GetDimensions fs = (fs.members.map FeatureType.GetDimensions).sum) ∧
    (∀ fs' : FeatureSet, fs'.members.Perm fs.members →
      GetDimensions fs' = GetDimensions fs) := by
  have key : ∀ gs : FeatureSet, (∀ t ∈ gs.members, t.GetDimensions < 2 ^ 32) →
      GetDimensions gs = (gs.members.map FeatureType.GetDimensions).sum % 2 ^ 32 := by
    intro gs
    induction gs with
    | single t =>
      intro hg
      have := hg t (by simp [FeatureSet.members])
      simp only [GetDimensions, Single.GetDimensions, FeatureSet.members, List.map_cons,
        List.map_nil, List.sum_cons, List.sum_nil, Nat.add_zero]
      omega
    | cons first remaining ih =>
      intro hg
      have hr := ih (fun t ht => hg t (by simp [FeatureSet.members, ht]))
      simp only [GetDimensions, Single.GetDimensions, FeatureSet.members, List.map_cons,
        List.sum_cons, u32]
      rw [hr]
      omega
  refine ⟨key fs h, ?_, ?_⟩
  · intro hlt
    rw [key fs h]
    omega
  · intro fs' hp
    rw [key fs h, key fs' (fun t ht => h t (hp.subset ht)),
      (hp.map FeatureType.GetDimensions).sum_eq]

/-- An instance: the list `[C, A, B]`. -/
theorem GetDimensions_eq_sum_witness :
    GetDimensions Sample.setCAB
      = (Sample.setCAB.members.map FeatureType.GetDimensions).sum % 2 ^ 32 ∧
    ((Sample.setCAB.members.map FeatureType.GetDimensions).sum < 2 ^ 32 →
      GetDimensions Sample.setCAB
        = (Sample.setCAB.members.map FeatureType.GetDimensions).sum) ∧
    (∀ fs' : FeatureSet, fs'.members.Perm Sample.setCAB.members →
      GetDimensions fs' = GetDimensions Sample.setCAB) :=
  GetDimensions_eq_sum Sample.setCAB (by
    intro t ht
    simp only [Sample.setCAB, Sample.setAB, FeatureSet.members, List.mem_cons,
      List.mem_singleton, List.mem_nil_iff, or_false] at ht
    rcases ht with rfl | rfl | rfl <;> decide)

end Factorizer

/-! ## Claims about the packed record -/

namespace TrainingFeature

/-- C12: for two records `a` and `b` (`a` a 32-bit word) with multiplicities `m1`,
`m2`: if their indices are equal and `m1 + m2 < 2 ^ 8`, then `a += b` succeeds and
leaves `a` with the same index and multiplicity exactly `m1 + m2`; if the indices
differ the merge fails on the first assertion, and if they are equal but
`m1 + m2 ≥ 2 ^ 8` it fails on the second. -/
theorem merge_adds_counts (a b : TrainingFeature) (ha : a.index_and_count_ < 2 ^ 32) :
    (b.GetIndex = a.GetIndex → a.GetCount + b.GetCount < 2 ^ 8 →
      ∃ r, a.merge b = .ok r ∧ r.GetIndex = a.GetIndex ∧
        r.GetCount = a.GetCount + b.GetCount) ∧
    (b.GetIndex ≠ a.GetIndex → a.merge b = .error .mergeIndex) ∧
    (b.GetIndex = a.GetIndex → 2 ^ 8 ≤ a.GetCount + b.GetCount →
      a.merge b = .error .mergeCount) := by
  have e1 : (1 : Nat) <<< kCountBits = 2 ^ 8 := by decide
  have hca := GetCount_eq a
  have hcb := GetCount_eq b
  have hia := GetIndex_eq a
  refine ⟨?_, ?_, ?_⟩
  · intro hi hm
    have hlt : u32 (b.GetCount + a.GetCount) < 1 <<< kCountBits := by
      rw [e1, u32]; omega
    refine ⟨⟨u32 (a.index_and_count_ + b.GetCount)⟩, ?_, ?_, ?_⟩
    · unfold merge
      rw [if_pos hi, if_pos hlt]
    · rw [GetIndex_eq, GetIndex_eq]; simp only [u32]; omega
    · rw [GetCount_eq, hca, hcb]; simp only [u32]; omega
  · intro hi
    unfold merge
    rw [if_neg hi]
  · intro hi hm
    have hge : ¬ u32 (b.GetCount + a.GetCount) < 1 <<< kCountBits := by
      rw [e1, u32]; omega
    unfold merge
    rw [if_pos hi, if_neg hge]

/-- An instance: merging two records with index 7 and counts 1 and 1. -/
theorem merge_adds_counts_witness :
    ∃ r, (Sample.record 7).merge (Sample.record 7) = .ok r ∧
      r.GetIndex = (Sample.record 7).GetIndex ∧
      r.GetCount = (Sample.record 7).GetCount + (Sample.record 7).GetCount :=
  (merge_adds_counts (Sample.record 7) (Sample.record 7) (by decide)).1 (by decide)
    (by decide)

/-- C13, as stated, fails: for the record with index 1 and the 32-bit offset
`2 ^ 32 - 1` the mathematical sum is `2 ^ 32 ≥ 2 ^ 24`, but the `IndexType` sum wraps
to 0, the assertion holds, and `ShiftIndex` succeeds, leaving index 0. -/
theorem ShiftIndex_succeeds_when_sum_wraps :
    (Sample.record 1).GetIndex = 1 ∧ 2 ^ 32 - 1 < 2 ^ 32 ∧
    2 ^ 24 ≤ (Sample.record 1).GetIndex + (2 ^ 32 - 1) ∧
    (Sample.record 1).ShiftIndex (2 ^ 32 - 1) = .ok (Sample.record 0) :=
  ⟨by decide, by decide, by decide, rfl⟩

/-- C13, amended: for every record (a 32-bit word) with index `i` and multiplicity
`m` and every 32-bit unsigned offset `o`: if `i + o < 2 ^ 24` then `ShiftIndex(o)`
succeeds and afterwards `GetIndex() = i + o` and `GetCount() = m`; if
`2 ^ 24 ≤ i + o < 2 ^ 32` then `ShiftIndex(o)` fails; if `i + o ≥ 2 ^ 32` the 32-bit
sum wraps and `ShiftIndex(o)` succeeds, leaving `GetIndex() = i + o - 2 ^ 32` and
`GetCount() = m`. -/
theorem ShiftIndex_cases (f : TrainingFeature) (offset : Nat)
    (hw : f.index_and_count_ < 2 ^ 32) (ho : offset < 2 ^ 32) :
    (f.GetIndex + offset < 2 ^ 24 →
      ∃ g, f.ShiftIndex offset = .ok g ∧ g.GetIndex = f.GetIndex + offset ∧
        g.GetCount = f.GetCount) ∧
    (2 ^ 24 ≤ f.GetIndex + offset → f.GetIndex + offset < 2 ^ 32 →
      f.ShiftIndex offset = .error .shiftOverflow) ∧
    (2 ^ 32 ≤ f.GetIndex + offset →
      ∃ g, f.ShiftIndex offset = .ok g ∧ g.GetIndex + 2 ^ 32 = f.GetIndex + offset ∧
        g.GetCount = f.GetCount) := by
  have e1 : (1 : Nat) <<< kIndexBits = 2 ^ 24 := by decide
  have e2 : offset <<< kCountBits = offset * 256 := by
    simp [kCountBits, kIndexBits, Nat.shiftLeft_eq]
  have hi := GetIndex_eq f
  have hc := GetCount_eq f
  refine ⟨?_, ?_, ?_⟩
  · intro h
    refine ⟨_, ShiftIndex_ok f offset h, ?_, ?_⟩
    · rw [GetIndex_eq, hi]; simp only; omega
    · rw [GetCount_eq, hc]; simp only; omega
  · intro h h32
    exact ShiftIndex_overflow f offset h h32
  · intro h
    have a1 : u32 (f.GetIndex + offset) < 1 <<< kIndexBits := by
      rw [e1, u32]; omega
    refine ⟨⟨u32 (f.index_and_count_ + u32 (offset <<< kCountBits))⟩, ?_, ?_, ?_⟩
    · unfold ShiftIndex
      rw [if_pos a1]
    · rw [GetIndex_eq, hi, e2]; simp only [u32]; omega
    · rw [GetCount_eq, hc, e2]; simp only [u32]; omega

/-- An instance: the record with index 7 shifted by 5. -/
theorem ShiftIndex_cases_witness :
    ∃ g, (Sample.record 7).ShiftIndex 5 = .ok g ∧ g.GetIndex = (Sample.record 7).GetIndex + 5 ∧
      g.GetCount = (Sample.record 7).GetCount :=
  (ShiftIndex_cases (Sample.record 7) 5 (by decide) (by decide)).1 (by decide)

/-- C14: shift round trip: for every record with index `i` and every offset `o` with
`i + o < 2 ^ 24`, `ShiftIndex(o)` followed by `ShiftIndex(-o)`, the 32-bit unsigned
negation of `o`, succeeds at both steps and restores the packed word exactly, so the
record has its original index and multiplicity. -/
theorem ShiftIndex_round_trip (f : TrainingFeature) (offset : Nat)
    (h : f.GetIndex + offset < 2 ^ 24) :
    ∃ g, f.ShiftIndex offset = .ok g ∧ g.ShiftIndex (sub32 0 offset) = .ok f ∧
      g.GetIndex = f.GetIndex + offset := by
  have hi := GetIndex_eq f
  refine ⟨_, ShiftIndex_ok f offset h, ?_, ?_⟩
  · have hg : (⟨f.index_and_count_ + 256 * offset⟩ : TrainingFeature).GetIndex
        = f.GetIndex + offset := by
      rw [GetIndex_eq, hi]; simp only; omega
    rw [ShiftIndex_sub32 _ 0 offset (by decide) (by rw [hg]; omega) (by rw [hg]; omega)]
    simp
  · rw [GetIndex_eq, hi]; simp only; omega

/-- An instance: the record with index 7 shifted by 5 and back. -/
theorem ShiftIndex_round_trip_witness :
    ∃ g, (Sample.record 7).ShiftIndex 5 = .ok g ∧
      g.ShiftIndex (sub32 0 5) = .ok (Sample.record 7) ∧
      g.GetIndex = (Sample.record 7).GetIndex + 5 :=
  ShiftIndex_round_trip (Sample.record 7) 5 (by decide)

/-- C15: for every index `i < 2 ^ 24`, `TrainingFeature(i)` is a record with
`GetIndex() = i` and `GetCount() = 1`; for every index `i ≥ 2 ^ 24` the construction
fails. -/
theorem create_index_count (index : Nat) :
    (index < 2 ^ 24 →
      ∃ f, create index = .ok f ∧ f.GetIndex = index ∧ f.GetCount = 1) ∧
    (2 ^ 24 ≤ index → create index = .error .indexBudget) := by
  have e1 : (1 : Nat) <<< kIndexBits = 2 ^ 24 := by decide
  have e2 : index <<< kCountBits = 2 ^ 8 * index := by
    simp [kCountBits, kIndexBits, Nat.shiftLeft_eq, Nat.mul_comm]
  constructor
  · intro h
    have hu : u32 (index <<< kCountBits) = 2 ^ 8 * index := by
      rw [e2, u32]; omega
    have hor : u32 (index <<< kCountBits) ||| 1 = 2 ^ 8 * index + 1 := by
      rw [hu]
      exact (Nat.mul_add_lt_is_or (by decide : 1 < 2 ^ 8) index).symm
    refine ⟨⟨u32 (index <<< kCountBits) ||| 1⟩, ?_, ?_, ?_⟩
    · unfold create
      rw [if_pos (by rw [e1]; exact h)]
    · rw [GetIndex_eq]; simp only [hor]; omega
    · rw [GetCount_eq]; simp only [hor]; omega
  · intro h
    unfold create
    rw [if_neg (by rw [e1]; omega)]

/-- C16: for every two records `a` and `b`, `a < b` (comparison of the packed words)
holds if and only if `a.GetIndex() < b.GetIndex()`, or `a.GetIndex() = b.GetIndex()`
and `a.GetCount() < b.GetCount()`; `operator<` is irreflexive, transitive and total
on distinct records, and a record between two records of equal index has that index
too. -/
theorem lt_iff_index_then_count (a b : TrainingFeature) :
    (a.lt b = true ↔
      a.GetIndex < b.GetIndex ∨ (a.GetIndex = b.GetIndex ∧ a.GetCount < b.GetCount)) ∧
    a.lt a = false ∧
    (∀ c : TrainingFeature, a.lt c = true → c.lt b = true → a.lt b = true) ∧
    (a ≠ b → a.lt b = true ∨ b.lt a = true) ∧
    (∀ c : TrainingFeature, a.lt c = true → c.lt b = true → a.GetIndex = b.GetIndex →
      c.GetIndex = a.GetIndex) := by
  have hia := GetIndex_eq a
  have hib := GetIndex_eq b
  have hca := GetCount_eq a
  have hcb := GetCount_eq b
  refine ⟨?_, ?_, ?_, ?_, ?_⟩
  · simp only [lt, decide_eq_true_eq]; omega
  · simp [lt]
  · intro c h1 h2
    simp only [lt, decide_eq_true_eq] at h1 h2 ⊢
    omega
  · intro hne
    have hw : a.index_and_count_ ≠ b.index_and_count_ := by
      intro h
      apply hne
      cases a; cases b
      simp only at h
      rw [h]
    simp only [lt, decide_eq_true_eq]
    omega
  · intro c h1 h2 he
    have hic := GetIndex_eq c
    simp only [lt, decide_eq_true_eq] at h1 h2
    omega

end TrainingFeature

namespace Factorizer

/-- C11: scenario: for the two-type list `[A(compact=3, expanded=5), B(compact=2,
expanded=2)]` with the default `base_dimensions`, whatever the two leaves append
(the leaf of `A` staying below its 5 dimensions), the composite call on compact index
`1 + 2`, which addresses local index 1 of `A` past the 2 compact dimensions of `B`,
completes and appends the records of the leaf of `A` for local index 1, in order and
with their counts: every factor index (`≥ 3`) ends shifted by `B`'s
`GetDimensions() = 2` in total, and every pass-through index `p < 3` ends at `p + 2`,
so the pass-through range of `A` begins at index 2. -/
theorem scenario_two_types (emitA emitB : Nat → List TrainingFeature)
    (training_features : List TrainingFeature)
    (hleaf : ∀ f ∈ emitA 1, f.GetIndex < 5) :
    kBaseDimensions (.single ⟨2, 2, emitB⟩) = 2 ∧
    GetDimensions (.single ⟨2, 2, emitB⟩) = 2 ∧
    ∃ appended,
      AppendTrainingFeaturesDefault (.cons ⟨3, 5, emitA⟩ (.single ⟨2, 2, emitB⟩))
          (1 + 2) training_features = ⟨training_features ++ appended, none⟩ ∧
      List.Forall₂ (fun f g =>
          (3 ≤ f.GetIndex → g.GetIndex = f.GetIndex + GetDimensions (.single ⟨2, 2, emitB⟩)) ∧
          (f.GetIndex < 3 → g.GetIndex = f.GetIndex + 2) ∧
          g.GetCount = f.GetCount)
        (emitA 1) appended := by
  have hsc : (FeatureSet.single ⟨2, 2, emitB⟩).sumCompact = 2 := by
    simp [FeatureSet.sumCompact, FeatureSet.members]
  have hse : (FeatureSet.single ⟨2, 2, emitB⟩).sumExpanded = 2 := by
    simp [FeatureSet.sumExpanded, FeatureSet.members]
  have hcall : AppendTrainingFeaturesDefault (.cons ⟨3, 5, emitA⟩ (.single ⟨2, 2, emitB⟩))
      (1 + 2) training_features
        = headBranch ⟨3, 5, emitA⟩ (.single ⟨2, 2, emitB⟩) 1 training_features 5 := by
    have hk : kBaseDimensions (.cons ⟨3, 5, emitA⟩ (.single ⟨2, 2, emitB⟩)) = 5 := by
      simp only [kBaseDimensions, FeatureSet.kDimensions, u32]; omega
    have hs : sub32 (1 + 2) 2 = 1 := by unfold sub32; omega
    unfold AppendTrainingFeaturesDefault
    rw [AppendTrainingFeatures, hk, if_pos (by omega)]
    simp only [FeatureSet.kDimensions]
    rw [if_neg (by omega), hs]
  have hhead := headBranch_eq ⟨3, 5, emitA⟩ (.single ⟨2, 2, emitB⟩) 1 5 training_features
    (by show (3 : Nat) ≤ 5; omega) (by rw [hsc, hse]) (by rw [hsc])
    (by rw [hsc, hse]; show 5 + (5 + 2) ≤ 2 ^ 24 + (3 + 2); omega)
    (by show (1 : Nat) < 3; omega) hleaf
  have hk2 : kBaseDimensions (.single ⟨2, 2, emitB⟩) = 2 := by
    simp [kBaseDimensions, FeatureSet.kDimensions]
  have hg2 : GetDimensions (.single ⟨2, 2, emitB⟩) = 2 := by
    simp [GetDimensions, Single.GetDimensions]
  refine ⟨hk2, hg2, _, hcall.trans hhead, ?_⟩
  apply forall₂_map_right
  intro f _
  rw [FeatureSet.placed_GetIndex, FeatureSet.placed_GetCount, FeatureSet.placedIndex_zero,
    hsc, hse]
  refine ⟨?_, ?_, rfl⟩
  · intro h
    rw [if_neg (by simp only; omega), hg2]
    simp only
    omega
  · intro h
    rw [if_pos (by simp only; omega)]

/-- An instance: the leaves of the sample types `A` and `B`. -/
theorem scenario_two_types_witness :
    kBaseDimensions (.single ⟨2, 2, Sample.typeB.AppendTrainingFeatures⟩) = 2 ∧
    GetDimensions (.single ⟨2, 2, Sample.typeB.AppendTrainingFeatures⟩) = 2 ∧
    ∃ appended,
      AppendTrainingFeaturesDefault (.cons ⟨3, 5, Sample.typeA.AppendTrainingFeatures⟩
          (.single ⟨2, 2, Sample.typeB.AppendTrainingFeatures⟩)) (1 + 2) []
        = ⟨[] ++ appended, none⟩ ∧
      List.Forall₂ (fun f g =>
          (3 ≤ f.GetIndex → g.GetIndex = f.GetIndex
            + GetDimensions (.single ⟨2, 2, Sample.typeB.AppendTrainingFeatures⟩)) ∧
          (f.GetIndex < 3 → g.GetIndex = f.GetIndex + 2) ∧
          g.GetCount = f.GetCount)
        (Sample.typeA.AppendTrainingFeatures 1) appended :=
  scenario_two_types Sample.typeA.AppendTrainingFeatures Sample.typeB.AppendTrainingFeatures []
    (by decide)

end Factorizer

/-! ## The closed form of the specification -/

namespace FeatureSet

theorem sum_extra_add_sumCompact (ms : List FeatureType)
    (h : ∀ t ∈ ms, t.kDimensions ≤ t.GetDimensions) :
    (ms.map (fun t => t.GetDimensions - t.kDimensions)).sum
        + (ms.map FeatureType.kDimensions).sum
      = (ms.map FeatureType.GetDimensions).sum := by
  induction ms with
  | nil => rfl
  | cons a rest ih =>
    have ha := h a (List.mem_cons_self a rest)
    have hr := ih (fun t ht => h t (List.mem_cons_of_mem a ht))
    simp only [List.map_cons, List.sum_cons]
    omega

theorem compactAfter_eq_sum (fs : FeatureSet) (k : Nat) (hk : k < fs.members.length) :
    fs.compactAfter k = ((fs.members.drop (k + 1)).map FeatureType.kDimensions).sum := by
  induction fs generalizing k with
  | single t =>
    have : k = 0 := by simpa [members] using hk
    subst this
    simp [compactAfter, members]
  | cons first remaining ih =>
    cases k with
    | zero => simp [compactAfter, members, sumCompact]
    | succ k =>
      have hk2 : k < remaining.members.length := by simpa [members] using hk
      simp only [compactAfter, members, List.drop_succ_cons]
      exact ih k hk2

theorem extraAfter_eq_sum (fs : FeatureSet) (hle : fs.CompactLeExpanded) (k : Nat)
    (hk : k < fs.members.length) :
    fs.extraAfter k
      = ((fs.members.drop (k + 1)).map (fun t => t.GetDimensions - t.kDimensions)).sum := by
  induction fs generalizing k with
  | single t =>
    have : k = 0 := by simpa [members] using hk
    subst this
    simp [extraAfter, members]
  | cons first remaining ih =>
    have hle2 : remaining.CompactLeExpanded := fun t ht => hle t (by simp [members, ht])
    cases k with
    | zero =>
      have := sum_extra_add_sumCompact remaining.members hle2
      simp only [extraAfter, members, List.drop_succ_cons, List.drop_zero, sumExpanded,
        sumCompact]
      omega
    | succ k =>
      have hk2 : k < remaining.members.length := by simpa [members] using hk
      simp only [extraAfter, members, List.drop_succ_cons]
      exact ih hle2 k hk2

theorem placedIndex_eq_closedFormIndex (fs : FeatureSet) (hle : fs.CompactLeExpanded)
    (k : Nat) (hk : k < fs.members.length) (B j : Nat) :
    fs.placedIndex k B j = fs.closedFormIndex k B j := by
  unfold placedIndex closedFormIndex
  rw [compactAfter_eq_sum fs k hk, extraAfter_eq_sum fs hle k hk]

end FeatureSet

namespace Factorizer

/-- C18, as stated, fails: for the list `[A, B]` (5 compact dimensions) and
`base_dimensions = 2 ^ 24`, compact index 3 is routed to `A` with local index 1; the
closed form puts the leaf's factor record with index 3 at `2 ^ 24`, but the call
fails in `ShiftIndex` on that record and re-bases nothing. -/
theorem closed_form_fails_past_index_budget :
    Sample.setAB.CompactLeExpanded ∧
    (Sample.setAB.members.map FeatureType.kDimensions).sum ≤ 2 ^ 24 ∧
    Sample.setAB.closedFormIndex 0 (2 ^ 24) 3 = 2 ^ 24 ∧
    AppendTrainingFeatures Sample.setAB 3 [] (2 ^ 24)
      = ⟨[Sample.record 1, Sample.record 3, Sample.record 4], some .shiftOverflow⟩ :=
  ⟨Sample.setAB_compactLeExpanded, by decide, by decide, by decide⟩

/-- C18, amended: the recursive composite call equals the closed-form re-basing
inside the index budget: for every feature-type list with `c_k ≤ d_k` whose leaves
stay below `d_k`, every `base_dimensions` `B` with `Σ c_k ≤ B` and
`B + Σ (d_k - c_k) ≤ 2 ^ 24`, and every valid compact index, routed to member `k`, the
call completes and the appended records are the records of member `k`'s leaf in the
same order, with their counts, a leaf record with index `j` ending at
`closedFormIndex k B j`; and when the list is `first :: remaining` and the index is
routed to `first`, this level shifts every extra factor `Head` returned by
`Tail::GetDimensions() - Tail::kBaseDimensions`. -/
theorem append_eq_closed_form (fs : FeatureSet) (hle : fs.CompactLeExpanded)
    (hleaf : fs.LeavesInRange) (base_dimensions : Nat) (hB : fs.sumCompact ≤ base_dimensions)
    (hbound : base_dimensions + fs.sumExpanded ≤ 2 ^ 24 + fs.sumCompact)
    (base_index : Nat) (hi : base_index < kBaseDimensions fs)
    (training_features : List TrainingFeature) :
    (∃ appended, AppendTrainingFeatures fs base_index training_features base_dimensions
        = ⟨training_features ++ appended, none⟩ ∧
      List.Forall₂ (fun f g =>
          g.GetIndex = fs.closedFormIndex (fs.memberOf base_index) base_dimensions f.GetIndex ∧
          g.GetCount = f.GetCount)
        ((fs.member (fs.memberOf base_index)).AppendTrainingFeatures
          (fs.localIndex base_index)) appended) ∧
    (∀ first remaining, fs = .cons first remaining → kBaseDimensions remaining ≤ base_index →
      ∃ returned appended,
        Single.AppendTrainingFeatures first (base_index - kBaseDimensions remaining)
            training_features base_dimensions = ⟨training_features ++ returned, none⟩ ∧
        AppendTrainingFeatures fs base_index training_features base_dimensions
          = ⟨training_features ++ appended, none⟩ ∧
        List.Forall₂ (fun h g => Single.kBaseDimensions first ≤ h.GetIndex →
            g.GetIndex = h.GetIndex + (GetDimensions remaining - kBaseDimensions remaining))
          returned appended) := by
  have hcs := FeatureSet.sumCompact_le_sumExpanded fs hle
  have hk : kBaseDimensions fs = fs.sumCompact := FeatureSet.kDimensions_eq fs (by omega)
  constructor
  · rw [hk] at hi
    obtain ⟨appended, ha, hf⟩ := append_forall₂ fs base_dimensions hle hleaf hB hbound
      base_index hi training_features
    refine ⟨appended, ha, hf.imp ?_⟩
    intro f g hfg
    rw [← FeatureSet.placedIndex_eq_closedFormIndex fs hle _
      (FeatureSet.memberOf_lt fs base_index)]
    exact hfg
  · intro first remaining hfs h1
    subst hfs
    obtain ⟨hkr, hg, hrem, hB2, hb2, hcd, hl, hs, ha⟩ := head_call_eq first remaining
      base_dimensions base_index training_features hle hleaf hB hbound h1 hi
    refine ⟨_, _, hs, ha, ?_⟩
    apply forall₂_map_map
    intro f hf hge
    have hfd := hl f hf
    simp only [Single.kBaseDimensions] at hge
    rw [FeatureSet.placed_GetIndex, FeatureSet.placedIndex_zero, hkr, hg]
    by_cases hc : first.kDimensions ≤ f.GetIndex
    · rw [Single.placed_GetIndex_factor first base_dimensions f hc, if_neg (by omega)]
      omega
    · exfalso
      have hp : f.GetIndex < first.kDimensions := by omega
      rw [Single.placed_passthrough first base_dimensions f hp] at hge
      omega

/-- An instance: the list `[A, B]` with `base_dimensions = 7` and compact index 3. -/
theorem append_eq_closed_form_witness :
    (∃ appended, AppendTrainingFeatures Sample.setAB 3 [] 7 = ⟨[] ++ appended, none⟩ ∧
      List.Forall₂ (fun f g =>
          g.GetIndex = Sample.setAB.closedFormIndex (Sample.setAB.memberOf 3) 7 f.GetIndex ∧
          g.GetCount = f.GetCount)
        ((Sample.setAB.member (Sample.setAB.memberOf 3)).AppendTrainingFeatures
          (Sample.setAB.localIndex 3)) appended) ∧
    (∀ first remaining, Sample.setAB = .cons first remaining →
      kBaseDimensions remaining ≤ 3 →
      ∃ returned appended,
        Single.AppendTrainingFeatures first (3 - kBaseDimensions remaining) [] 7
          = ⟨[] ++ returned, none⟩ ∧
        AppendTrainingFeatures Sample.setAB 3 [] 7 = ⟨[] ++ appended, none⟩ ∧
        List.Forall₂ (fun h g => Single.kBaseDimensions first ≤ h.GetIndex →
            g.GetIndex = h.GetIndex + (GetDimensions remaining - kBaseDimensions remaining))
          returned appended) :=
  append_eq_closed_form Sample.setAB Sample.setAB_compactLeExpanded
    Sample.setAB_leavesInRange 7 (by decide) (by decide) 3 (by decide) []

end Factorizer

/-! ## Assertions and the frame of the call -/

theorem forEachFrom_ok_inv (body : TrainingFeature → Except Failure TrainingFeature)
    (l : List TrainingFeature) (h : (forEachFrom body l).failure = none) :
    List.Forall₂ (fun f g => body f = .ok g) l (forEachFrom body l).training_features := by
  induction l with
  | nil => exact List.Forall₂.nil
  | cons a rest ih =>
    unfold forEachFrom at h ⊢
    cases hb : body a with
    | error e => rw [hb] at h; simp at h
    | ok s =>
      rw [hb] at h
      simp only at h ⊢
      exact List.Forall₂.cons hb (ih h)

theorem loopFrom_length_append (body : TrainingFeature → Except Failure TrainingFeature)
    (tf l : List TrainingFeature) :
    loopFrom body tf.length (tf ++ l)
      = ⟨tf ++ (forEachFrom body l).training_features, (forEachFrom body l).failure⟩ := by
  simp [loopFrom]

theorem forall₂_comp (R S T : TrainingFeature → TrainingFeature → Prop)
    (hT : ∀ a b c, R a b → S b c → T a c) (l₁ l₂ l₃ : List TrainingFeature)
    (h₁ : List.Forall₂ R l₁ l₂) (h₂ : List.Forall₂ S l₂ l₃) : List.Forall₂ T l₁ l₃ := by
  induction h₁ generalizing l₃ with
  | nil => cases h₂; exact List.Forall₂.nil
  | cons hab _ ih =>
    cases h₂ with
    | cons hbc hrest => exact List.Forall₂.cons (hT _ _ _ hab hbc) (ih _ hrest)

namespace TrainingFeature

theorem ShiftIndex_GetCount (f g : TrainingFeature) (offset : Nat)
    (h : f.ShiftIndex offset = .ok g) : g.GetCount = f.GetCount := by
  have e2 : offset <<< kCountBits = offset * 256 := by
    simp [kCountBits, kIndexBits, Nat.shiftLeft_eq]
  unfold ShiftIndex at h
  split at h
  · injection h with h
    rw [← h, GetCount_eq, GetCount_eq, e2]
    simp only [u32]
    omega
  · cases h

end TrainingFeature

namespace Single

theorem base_body_GetCount (t : FeatureType) (B : Nat) (f g : TrainingFeature)
    (h : body t B f = .ok g) : g.GetCount = f.GetCount := by
  unfold body at h
  split at h
  · split at h
    · exact TrainingFeature.ShiftIndex_GetCount f g _ h
    · injection h with h; rw [h]
  · cases h

/-- A completed base-case call appended the leaf's records, counts unchanged. -/
theorem append_ok_inv (t : FeatureType) (i B : Nat) (tf : List TrainingFeature)
    (h : (AppendTrainingFeatures t i tf B).failure = none) :
    ∃ appended, (AppendTrainingFeatures t i tf B).training_features = tf ++ appended ∧
      List.Forall₂ (fun f g => g.GetCount = f.GetCount) (t.AppendTrainingFeatures i)
        appended := by
  unfold AppendTrainingFeatures at h ⊢
  by_cases hi : i < kBaseDimensions t
  · rw [if_pos hi] at h ⊢
    simp only [loopFrom_length_append] at h ⊢
    exact ⟨_, rfl, (forEachFrom_ok_inv _ _ h).imp (fun _ _ hb => base_body_GetCount t B _ _ hb)⟩
  · rw [if_neg hi] at h
    simp at h

end Single

namespace Factorizer

theorem body_GetCount (first : FeatureType) (remaining : FeatureSet) (B : Nat)
    (f g : TrainingFeature) (h : body first remaining B f = .ok g) :
    g.GetCount = f.GetCount := by
  unfold body at h
  simp only at h
  split at h
  · split at h
    · exact TrainingFeature.ShiftIndex_GetCount f g _ h
    · exact TrainingFeature.ShiftIndex_GetCount f g _ h
  · cases h

theorem headBranch_ok_inv (first : FeatureType) (remaining : FeatureSet) (j B : Nat)
    (tf : List TrainingFeature) (h : (headBranch first remaining j tf B).failure = none) :
    ∃ appended, (headBranch first remaining j tf B).training_features = tf ++ appended ∧
      List.Forall₂ (fun f g => g.GetCount = f.GetCount) (first.AppendTrainingFeatures j)
        appended := by
  unfold headBranch at h ⊢
  simp only at h ⊢
  have inv := Single.append_ok_inv first j B tf
  generalize Single.AppendTrainingFeatures first j tf B = o at h inv ⊢
  obtain ⟨otf, ofail⟩ := o
  cases ofail with
  | some e => simp at h
  | none =>
    simp only at h ⊢
    obtain ⟨mid, hmid, hf⟩ := inv rfl
    simp only at hmid
    rw [hmid, loopFrom_length_append] at h ⊢
    simp only at h ⊢
    refine ⟨_, rfl, forall₂_comp _ _ _ ?_ _ _ _ hf (forEachFrom_ok_inv _ _ h)⟩
    intro a b c hab hbc
    rw [body_GetCount first remaining B b c hbc, hab]

/-- C19, as stated, fails: the list of two feature types with compact size 1 and
`GetDimensions() = 2 ^ 31`, whose leaves append the record with index `2 ^ 24 - 1`,
meets every hypothesis of the claim (`GetDimensions()` of the list wraps to 0), yet
the default call with compact index 0 violates the overflow check of `ShiftIndex`. -/
theorem default_call_fails_when_dimensions_wrap :
    Sample.setHugeEdge.CompactLeExpanded ∧ Sample.setHugeEdge.LeavesInRange ∧
    GetDimensions Sample.setHugeEdge ≤ 2 ^ 24 ∧ 0 < kBaseDimensions Sample.setHugeEdge ∧
    AppendTrainingFeaturesDefault Sample.setHugeEdge 0 []
      = ⟨[Sample.record (2 ^ 24 - 1)], some .shiftOverflow⟩ := by
  refine ⟨?_, ?_, by decide, by decide, by decide⟩
  · intro t ht
    simp only [Sample.setHugeEdge, FeatureSet.members, List.mem_cons, List.mem_singleton,
      List.mem_nil_iff, or_false, or_self] at ht
    subst ht; decide
  · intro t ht i _ f hf
    simp only [Sample.setHugeEdge, FeatureSet.members, List.mem_cons, List.mem_singleton,
      List.mem_nil_iff, or_false, or_self] at ht
    subst ht
    simp only [Sample.typeHugeEdge, List.mem_singleton] at hf
    subst hf; decide

/-- C19, amended: no assertion fails on a valid call: for every feature-type list with
`c_k ≤ d_k` for each member whose expanded sizes sum to at most `2 ^ 24`, whose leaves
append only records with index below `d_k`, and every compact index below
`kBaseDimensions`, the composite call with the default `base_dimensions` ends with
no failed assertion: not the range check on `base_index` at any recursion level, not
the per-record assertions of the head branch and of the base case, not the overflow
check of any `ShiftIndex` call. -/
theorem default_call_no_assertion_fails (fs : FeatureSet) (hle : fs.CompactLeExpanded)
    (hleaf : fs.LeavesInRange) (hdim : fs.sumExpanded ≤ 2 ^ 24)
    (base_index : Nat) (hi : base_index < kBaseDimensions fs)
    (training_features : List TrainingFeature) :
    (AppendTrainingFeaturesDefault fs base_index training_features).failure = none ∧
    ∀ e : Failure,
      (AppendTrainingFeaturesDefault fs base_index training_features).failure ≠ some e := by
  have hcs := FeatureSet.sumCompact_le_sumExpanded fs hle
  have hk : kBaseDimensions fs = fs.sumCompact := FeatureSet.kDimensions_eq fs (by omega)
  have h : (AppendTrainingFeaturesDefault fs base_index training_features).failure = none := by
    unfold AppendTrainingFeaturesDefault
    rw [hk] at hi ⊢
    rw [append_eq fs fs.sumCompact hle hleaf (le_refl _) (by omega) base_index hi
      training_features]
  exact ⟨h, fun e he => by rw [h] at he; cases he⟩

/-- An instance: the list `[A, B]` with compact index 3. -/
theorem default_call_no_assertion_fails_witness :
    (AppendTrainingFeaturesDefault Sample.setAB 3 []).failure = none ∧
    ∀ e : Failure, (AppendTrainingFeaturesDefault Sample.setAB 3 []).failure ≠ some e :=
  default_call_no_assertion_fails Sample.setAB Sample.setAB_compactLeExpanded
    Sample.setAB_leavesInRange (by decide) 3 (by decide) []

/-- C20: the composite call only appends: for every feature-type list, compact index,
`base_dimensions` and initial sink, the sink after a call that completed without a
failed assertion is the initial sink, unchanged, followed by exactly as many new
records as the selected leaf appended, and each new record carries the count the leaf
gave it. -/
theorem append_only_appends (fs : FeatureSet) (base_index base_dimensions : Nat)
    (training_features : List TrainingFeature)
    (hok : (AppendTrainingFeatures fs base_index training_features
      base_dimensions).failure = none) :
    ∃ appended,
      (AppendTrainingFeatures fs base_index training_features
        base_dimensions).training_features = training_features ++ appended ∧
      appended.length = ((selected fs base_index).1.AppendTrainingFeatures
        (selected fs base_index).2).length ∧
      List.Forall₂ (fun f g => g.GetCount = f.GetCount)
        ((selected fs base_index).1.AppendTrainingFeatures (selected fs base_index).2)
        appended := by
  induction fs with
  | single t =>
    rw [AppendTrainingFeatures] at hok ⊢
    obtain ⟨appended, ha, hf⟩ := Single.append_ok_inv t base_index base_dimensions
      training_features hok
    exact ⟨appended, ha, hf.length_eq.symm, hf⟩
  | cons first remaining ih =>
    rw [AppendTrainingFeatures] at hok ⊢
    by_cases h1 : base_index < kBaseDimensions (.cons first remaining)
    · rw [if_pos h1] at hok ⊢
      simp only at hok ⊢
      by_cases h2 : base_index < remaining.kDimensions
      · rw [if_pos h2] at hok ⊢
        simp only [selected, if_pos h2]
        exact ih hok
      · rw [if_neg h2] at hok ⊢
        simp only [selected, if_neg h2]
        obtain ⟨appended, ha, hf⟩ := headBranch_ok_inv first remaining _ base_dimensions
          training_features hok
        exact ⟨appended, ha, hf.length_eq.symm, hf⟩
    · rw [if_neg h1] at hok
      simp at hok

/-- An instance: the list `[A, B]`, compact index 3, a sink holding one record. -/
theorem append_only_appends_witness :
    ∃ appended,
      (AppendTrainingFeatures Sample.setAB 3 [Sample.record 9] 5).training_features
        = [Sample.record 9] ++ appended ∧
      appended.length = ((selected Sample.setAB 3).1.AppendTrainingFeatures
        (selected Sample.setAB 3).2).length ∧
      List.Forall₂ (fun f g => g.GetCount = f.GetCount)
        ((selected Sample.setAB 3).1.AppendTrainingFeatures (selected Sample.setAB 3).2)
        appended :=
  append_only_appends Sample.setAB 3 5 [Sample.record 9] (by decide)

end Factorizer

/-! ## Messages -/

theorem digitChar_inj_of_lt : ∀ a, a < 10 → ∀ b, b < 10 →
    Nat.digitChar a = Nat.digitChar b → a = b := by
  decide

theorem map_digitChar_inj (l₁ l₂ : List Nat) (h₁ : ∀ d ∈ l₁, d < 10)
    (h₂ : ∀ d ∈ l₂, d < 10) (h : l₁.map Nat.digitChar = l₂.map Nat.digitChar) :
    l₁ = l₂ := by
  induction l₁ generalizing l₂ with
  | nil =>
    cases l₂ with
    | nil => rfl
    | cons b r => simp at h
  | cons a r ih =>
    cases l₂ with
    | nil => simp at h
    | cons b r₂ =>
      simp only [List.map_cons, List.cons.injEq] at h
      have hab := digitChar_inj_of_lt a (h₁ a (List.mem_cons_self a r)) b
        (h₂ b (List.mem_cons_self b r₂)) h.1
      have hr := ih r₂ (fun d hd => h₁ d (List.mem_cons_of_mem a hd))
        (fun d hd => h₂ d (List.mem_cons_of_mem b hd)) h.2
      rw [hab, hr]

theorem to_string_injective (a b : Nat) (h : to_string a = to_string b) : a = b := by
  have key : ∀ m : Nat, m ≠ 0 → to_string m ≠ ['0'] := by
    intro m hm hcon
    unfold to_string at hcon
    rw [if_neg hm] at hcon
    have hlast := Nat.getLast_digit_ne_zero 10 hm
    have hd : ∀ d ∈ (Nat.digits 10 m).reverse, d < 10 := fun d hd =>
      Nat.digits_lt_base (by decide) (List.mem_reverse.mp hd)
    have h0 : (Nat.digits 10 m).reverse = [0] :=
      map_digitChar_inj _ [0] hd (by simp) (by simpa using hcon)
    have h1 : Nat.digits 10 m = [0] := by
      have := congrArg List.reverse h0
      simpa using this
    simp [h1] at hlast
  by_cases ha : a = 0
  · by_cases hb : b = 0
    · rw [ha, hb]
    · exfalso
      apply key b hb
      rw [← h, ha]
      rfl
  · by_cases hb : b = 0
    · exfalso
      apply key a ha
      rw [h, hb]
      rfl
    · unfold to_string at h
      rw [if_neg ha, if_neg hb] at h
      have hda : ∀ d ∈ (Nat.digits 10 a).reverse, d < 10 := fun d hd =>
        Nat.digits_lt_base (by decide) (List.mem_reverse.mp hd)
      have hdb : ∀ d ∈ (Nat.digits 10 b).reverse, d < 10 := fun d hd =>
        Nat.digits_lt_base (by decide) (List.mem_reverse.mp hd)
      have hr := map_digitChar_inj _ _ hda hdb h
      have := congrArg List.reverse hr
      simp only [List.reverse_reverse] at this
      exact Nat.digits_inj_iff.mp this

/-- One call on a message named `name[k]` whose `num_peekers` is `p`. -/
theorem ReceiveMessage_subscript (name value : List Char) (k p r : Nat) :
    ReceiveMessage name ⟨name ++ '[' :: (to_string k ++ [']']), value, p, r⟩
      = (decide (p = k),
          ⟨name ++ '[' :: (to_string k ++ [']']), value, u32 (p + 1),
            if p = k then u32 (r + 1) else r⟩) := by
  have htake : (name ++ '[' :: (to_string k ++ [']'])).take (name.length + 1)
      = name ++ ['['] := by
    have : name ++ '[' :: (to_string k ++ [']']) = (name ++ ['[']) ++ (to_string k ++ [']']) := by
      simp
    rw [this]
    exact List.take_left' (by simp)
  have hne : name ++ '[' :: (to_string k ++ [']']) ≠ name := by
    intro hcon
    have := congrArg List.length hcon
    simp at this
  have hsub : name ++ '[' :: (to_string k ++ [']']) = name ++ (['['] ++ to_string p ++ [']'])
      ↔ p = k := by
    constructor
    · intro hcon
      have h1 := List.append_cancel_left hcon
      simp only [List.singleton_append, List.cons_append, List.cons.injEq, true_and] at h1
      exact (to_string_injective k p (List.append_cancel_right h1)).symm
    · intro hpk
      rw [hpk]
      simp
  unfold ReceiveMessage
  simp only [htake, if_true, hne, false_or, hsub]
  by_cases hpk : p = k
  · simp [hpk]
  · simp [hpk]

theorem afterCalls_subscript_state (name value : List Char) (k i : Nat) :
    ∃ r, afterCalls name (Message.create (name ++ '[' :: (to_string k ++ [']'])) value) i
      = ⟨name ++ '[' :: (to_string k ++ [']']), value, i % 2 ^ 32, r⟩ := by
  induction i with
  | zero => exact ⟨0, rfl⟩
  | succ i ih =>
    obtain ⟨r, hr⟩ := ih
    refine ⟨if i % 2 ^ 32 = k then u32 (r + 1) else r, ?_⟩
    rw [afterCalls, hr, ReceiveMessage_subscript]
    simp only [u32, Message.mk.injEq, true_and, and_true]
    omega

theorem callResult_subscript (name value : List Char) (k i : Nat) :
    callResult name (Message.create (name ++ '[' :: (to_string k ++ [']'])) value) i = true
      ↔ i % 2 ^ 32 = k := by
  obtain ⟨r, hr⟩ := afterCalls_subscript_state name value k i
  rw [callResult, hr, ReceiveMessage_subscript]
  simp

/-- `num_receivers` goes up by one, modulo `2 ^ 32`, with every call that returns
true, and only then. -/
theorem afterCalls_num_receivers (name : List Char) (message : Message) (i : Nat)
    (h0 : message.num_receivers = 0) :
    (afterCalls name message i).num_receivers = u32 (acceptedCalls name message i) := by
  induction i with
  | zero => simp [afterCalls, acceptedCalls, h0, u32]
  | succ i ih =>
    have hstep : (afterCalls name message (i + 1)).num_receivers
        = if callResult name message i = true then
            u32 ((afterCalls name message i).num_receivers + 1)
          else (afterCalls name message i).num_receivers := by
      rw [afterCalls, callResult]
      unfold ReceiveMessage
      simp only
      split <;> simp
    have hcount : acceptedCalls name message (i + 1)
        = acceptedCalls name message i + if callResult name message i = true then 1 else 0 := by
      unfold acceptedCalls
      rw [List.range_succ, List.filter_append, List.length_append]
      by_cases hc : callResult name message i = true
      · simp [hc]
      · simp [hc]
    rw [hstep, hcount, ih]
    by_cases hc : callResult name message i = true
    · simp only [if_pos hc, u32]; omega
    · simp only [if_neg hc, u32]; omega

theorem acceptedCalls_le (name : List Char) (message : Message) (i : Nat) :
    acceptedCalls name message i ≤ i := by
  unfold acceptedCalls
  have := List.length_filter_le (fun j => callResult name message j) (List.range i)
  simpa using this

theorem afterCalls_name (name : List Char) (message : Message) (i : Nat) :
    (afterCalls name message i).name = message.name := by
  induction i with
  | zero => rfl
  | succ i ih =>
    rw [afterCalls]
    unfold ReceiveMessage
    simp only
    split <;> exact ih

theorem callResult_exact_name (name : List Char) (message : Message) (i : Nat)
    (h : message.name = name) : callResult name message i = true := by
  have hn := afterCalls_name name message i
  rw [h] at hn
  unfold callResult ReceiveMessage
  simp only [hn, true_or, if_true]

/-- C17, as stated, fails: `num_peekers` is a `std::uint32_t`, so after `2 ^ 32` calls
it is 0 again: for the receiver name `a` and a fresh message named `a[0]`, the call
number `2 ^ 32` returns true although `2 ^ 32 ≠ 0`. -/
theorem ReceiveMessage_accepts_again_after_wrap :
    ['a', '[', '0', ']'] = ['a'] ++ '[' :: (to_string 0 ++ [']']) ∧
    (Message.create ['a', '[', '0', ']'] []).num_peekers = 0 ∧
    callResult ['a'] (Message.create ['a', '[', '0', ']'] []) (2 ^ 32) = true ∧
    (2 ^ 32 : Nat) ≠ 0 := by
  have e : ['a', '[', '0', ']'] = ['a'] ++ '[' :: (to_string 0 ++ [']']) := by
    simp [to_string]
  refine ⟨e, rfl, ?_, by decide⟩
  rw [e]
  exact (callResult_subscript ['a'] [] 0 (2 ^ 32)).mpr (by decide)

/-- C17, amended: for every receiver name `n` and a freshly constructed message
(`num_peekers = 0`, `num_receivers = 0`): if the message name equals `n`, every call
`ReceiveMessage(n, message)` returns true; if the message name is `n` followed by
`[k]`, `k` a natural number in decimal, then in a sequence of successive calls
`ReceiveMessage(n, message)` the call number `i < 2 ^ 32`, counting from 0, returns
true if and only if `i = k`, and after any number `i < 2 ^ 32` of calls
`num_receivers` is exactly the number of calls that returned true. -/
theorem ReceiveMessage_subscript_counts (name value : List Char) (k : Nat) :
    (∀ i, callResult name (Message.create name value) i = true) ∧
    (∀ i, i < 2 ^ 32 →
      (callResult name (Message.create (name ++ '[' :: (to_string k ++ [']'])) value) i = true
        ↔ i = k)) ∧
    (∀ i, i < 2 ^ 32 →
      (afterCalls name (Message.create (name ++ '[' :: (to_string k ++ [']'])) value)
          i).num_receivers
        = acceptedCalls name (Message.create (name ++ '[' :: (to_string k ++ [']'])) value)
            i) := by
  refine ⟨?_, ?_, ?_⟩
  · intro i
    exact callResult_exact_name name _ i rfl
  · intro i hi
    rw [callResult_subscript]
    omega
  · intro i hi
    have hle := acceptedCalls_le name
      (Message.create (name ++ '[' :: (to_string k ++ [']'])) value) i
    rw [afterCalls_num_receivers name _ i rfl, u32]
    omega

end Eval.NNUE
